import Mathlib

/-!
Verification of the `AgentContainerManager` component
(`src/agent-container-manager.ts` of the vibeclaw repository).

The embedding models:

* the container registry (an insertion-ordered association list mirroring the
  JavaScript `Map<string, ManagedContainer>`),
* the per-container operation gate built from chained promises
  (`enqueue` / the `run` closure), as a small-step transition relation on
  manager states together with per-record ghost state recording the life cycle
  of every submitted operation,
* the public operations `spawn`, `snapshot`, `clone`, `terminate`,
  `evictIdleContainers` as state-transforming functions, and
* `runWithControls` (timeout / abort racing) as a function from an operation
  environment (when the work settles, when the abort signal fires) to the
  settled outcome.

External collaborators (the runtime built by `createRuntime`, the package
manager, the event emitter) are black boxes in the source as well; the
embedding keeps the registry-visible effects (construction success or failure,
best-effort `runtime.terminate()`) and drops the opaque handles.
-/

namespace Vibeclaw

/-- Lifecycle states of a managed container (`AgentContainerStatus`). -/
inductive Status
  | creating
  | ready
  | busy
  | errored
  | terminating
  | terminated
deriving DecidableEq, Repr

/-- `isFinalizingStatus` from the source: `terminating` or `terminated`. -/
def isFinalizingStatus : Status → Bool
  | .terminating => true
  | .terminated => true
  | _ => false

/-- Ghost life-cycle phase of one submitted gate operation.  `queued`: the
`run` closure is chained but has not executed yet; `running`: `run` passed the
finalizing check and the work is in flight; `done`: the `finally` block of
`run` completed; `cancelled`: `run` executed while the container was
finalizing and threw before starting the work (no counter is updated on that
path). -/
inductive OpPhase
  | queued
  | running
  | done
  | cancelled
deriving DecidableEq, Repr

/-- A phase in which the chained promise for the operation has settled, so the
next link of the chain may execute. -/
def settledPhase : OpPhase → Bool
  | .done => true
  | .cancelled => true
  | _ => false

/-- A phase in which the operation's work has been started (the body of `run`
past the finalizing check was entered). -/
def startedPhase : OpPhase → Bool
  | .running => true
  | .done => true
  | _ => false

/-- Outcome of a managed operation, as produced by `runWithControls` and
consumed by the `catch` block of `run`. -/
inductive OpOutcome
  | success
  | timeout (timeoutMs : Int)
  | aborted
  | workError (msg : String)
deriving DecidableEq, Repr

/-- Cumulative counters of the manager (`metricsBase`). -/
structure Metrics where
  containersCreated : Nat
  containersTerminated : Nat
  operationsStarted : Nat
  operationsSucceeded : Nat
  operationsFailed : Nat
  operationTimeouts : Nat
  operationAborted : Nat
deriving DecidableEq, Repr

def Metrics.init : Metrics :=
  ⟨0, 0, 0, 0, 0, 0, 0⟩

/-- A virtual-filesystem snapshot: path ↦ file content.  The `VirtualFS`
itself is external to the component; only snapshot values and seeded writes
cross its interface. -/
abbrev VFS := List (String × String)

/-- `vfs.writeFileSync path content` — overwrite-or-append used when seeding
`options.files` during spawn. -/
def vfsWrite (fs : VFS) (path content : String) : VFS :=
  if (List.lookup path fs).isSome then
    fs.map fun p => if p.1 = path then (p.1, content) else p
  else
    fs ++ [(path, content)]

/-- Runtime mode classification (`AgentContainerRuntimeMode`). -/
inductive RuntimeMode
  | worker
  | sandbox
  | mainThread
deriving DecidableEq, Repr

/-- One registry record (`ManagedContainer`), with ghost fields `ops` (the
promise chain: phase of every operation ever submitted on this record, in
submission order) and `startLog` (indices of operations in the temporal order
in which their work started). -/
structure ContainerRec where
  id : String
  status : Status
  runtimeMode : RuntimeMode
  runtimeReady : Bool
  createdAt : Int
  updatedAt : Int
  lastUsedAt : Int
  activeOperations : Nat
  pendingOperations : Nat
  metadata : Option (List (String × String))
  lastError : Option String
  vfsContent : VFS
  ops : List OpPhase
  startLog : List Nat
deriving DecidableEq, Repr

/-- Typed rendering of the `Error` values thrown by the manager. -/
inductive MgrError
  | capacityReached
  | duplicateId (id : String)
  | constructionFailed (msg : String)
  | notFound (id : String)
  | finalizing (id : String) (status : Status)
deriving DecidableEq, Repr

/-- Whole-manager state: the registry (insertion ordered, mirroring the JS
`Map`) and the cumulative metrics. -/
structure MgrState where
  containers : List (String × ContainerRec)
  metrics : Metrics
deriving DecidableEq, Repr

def MgrState.init : MgrState :=
  ⟨[], Metrics.init⟩

/-- `this.containers.get(id)`. -/
def lookupC (st : MgrState) (id : String) : Option ContainerRec :=
  List.lookup id st.containers

/-- `this.containers.delete(id)`. -/
def eraseRec (cs : List (String × ContainerRec)) (id : String) :
    List (String × ContainerRec) :=
  cs.filter fun p => !(p.1 == id)

/-- Point update of the record stored under `id` (mutation of the
`ManagedContainer` object held by the `Map`). -/
def updateRec (st : MgrState) (id : String) (f : ContainerRec → ContainerRec) :
    MgrState :=
  { st with containers := st.containers.map fun p => if p.1 == id then (p.1, f p.2) else p }

/-! ### Per-container gate primitives (the `enqueue` / `run` closure) -/

/-- `setStatus(container, status)` — early-returns when the status is
unchanged, otherwise assigns it and bumps `updatedAt`.  (The emitted
`container-status` event is observability only.) -/
def setStatusFn (c : ContainerRec) (s : Status) (now : Int) : ContainerRec :=
  if c.status = s then c else { c with status := s, updatedAt := now }

/-- Admission (`enqueue` lines before the `run` closure): bump
`pendingOperations` and chain one more link onto the promise queue. -/
def submitFn (c : ContainerRec) : ContainerRec :=
  { c with
    pendingOperations := c.pendingOperations + 1
    ops := c.ops ++ [.queued] }

/-- The part of `run` past the finalizing check, up to dispatching the work:
bump `activeOperations`, touch `lastUsedAt`, set status `busy`.
(`operationsStarted` is updated by the manager-level step.) -/
def startFn (c : ContainerRec) (i : Nat) (now : Int) : ContainerRec :=
  setStatusFn
    { c with
      activeOperations := c.activeOperations + 1
      lastUsedAt := now
      ops := c.ops.set i .running
      startLog := c.startLog ++ [i] }
    .busy now

/-- The early throw in `run` when the container is already finalizing: the
operation's promise settles (rejected) without any counter or status update.
Note `pendingOperations` is **not** decremented on this path — the `finally`
block that decrements it is never entered. -/
def cancelFn (c : ContainerRec) (i : Nat) : ContainerRec :=
  { c with ops := c.ops.set i .cancelled }

/-- The `catch`/`finally` part of `run` once the work has settled with
`out`: record `lastError` on failure, decrement both counters (clamped at 0
via `Math.max`, which on `Nat` is truncated subtraction), touch `lastUsedAt`,
and restore `busy`/`ready` unless the container is finalizing. -/
def applyFailure (c : ContainerRec) (out : OpOutcome) : ContainerRec :=
  match out with
  | .success => c
  | .timeout ms => { c with lastError := some s!"timed out after {ms}ms" }
  | .aborted => { c with lastError := some "aborted" }
  | .workError msg => { c with lastError := some msg }

/-- The `finally` half of `finishFn` before the status restore. -/
def finishCore (c : ContainerRec) (i : Nat) (out : OpOutcome) (now : Int) :
    ContainerRec :=
  { applyFailure c out with
    activeOperations := c.activeOperations - 1
    pendingOperations := c.pendingOperations - 1
    lastUsedAt := now
    ops := c.ops.set i .done }

def finishFn (c : ContainerRec) (i : Nat) (out : OpOutcome) (now : Int) :
    ContainerRec :=
  if isFinalizingStatus (finishCore c i out now).status then
    finishCore c i out now
  else
    setStatusFn (finishCore c i out now)
      (if 0 < (finishCore c i out now).activeOperations then .busy else .ready)
      now

/-- Metrics update of the `catch` block (and `operationsSucceeded` on the
success path). -/
def finishMetrics (m : Metrics) (out : OpOutcome) : Metrics :=
  match out with
  | .success => { m with operationsSucceeded := m.operationsSucceeded + 1 }
  | .timeout _ => { m with
      operationsFailed := m.operationsFailed + 1
      operationTimeouts := m.operationTimeouts + 1 }
  | .aborted => { m with
      operationsFailed := m.operationsFailed + 1
      operationAborted := m.operationAborted + 1 }
  | .workError _ => { m with operationsFailed := m.operationsFailed + 1 }

/-- Whether the chained promise ahead of operation `j` has settled, i.e. the
event loop may invoke operation `j`'s `run` (`container.queue.then(run, run)`
fires the next link once the previous one settles). -/
def runInvocable (c : ContainerRec) (j : Nat) : Prop :=
  c.ops.getD j .done = .queued ∧
    (j = 0 ∨ settledPhase (c.ops.getD (j - 1) .done) = true)

/-! ### Manager-level public operations -/

/-- Options of `spawn` that are visible to the registry (runtime-option
resolution is passed through to the external `createRuntime` and does not
touch the registry). -/
structure SpawnOptions where
  idOpt : Option String := none
  files : List (String × String) := []
  metadata : Option (List (String × String)) := none
  vfsSnapshot : Option VFS := none
deriving DecidableEq, Repr

/-- `this.containers.size >= this.maxContainers`; `none` models the default
`Number.POSITIVE_INFINITY` ceiling, which is never reached. -/
def capReached (maxContainers : Option Nat) (n : Nat) : Bool :=
  match maxContainers with
  | some m => decide (n ≥ m)
  | none => false

/-- The fresh `ManagedContainer` record built by `spawn` (status `creating`,
zero counters, seeded filesystem). -/
def spawnNewRec (id : String) (opts : SpawnOptions) (now : Int) :
    ContainerRec :=
  { id := id
    status := .creating
    runtimeMode := .mainThread
    runtimeReady := false
    createdAt := now
    updatedAt := now
    lastUsedAt := now
    activeOperations := 0
    pendingOperations := 0
    metadata := opts.metadata
    lastError := none
    vfsContent := opts.files.foldl (fun a pc => vfsWrite a pc.1 pc.2)
      (opts.vfsSnapshot.getD [])
    ops := []
    startLog := [] }

/-- Registry and metrics right after `this.containers.set(id, container)` and
`containersCreated += 1`. -/
def spawnInserted (st : MgrState) (opts : SpawnOptions) (freshId : String)
    (now : Int) : MgrState :=
  { containers :=
      st.containers ++ [(opts.idOpt.getD freshId,
        spawnNewRec (opts.idOpt.getD freshId) opts now)]
    metrics := { st.metrics with
      containersCreated := st.metrics.containersCreated + 1 } }

/-- `spawn`.  `freshId` is the value the configured id generator would
produce; `runtimeCtor` is the result of the external
`await createRuntime(vfs, runtimeOptions)`. -/
def spawn (maxContainers : Option Nat) (st : MgrState) (opts : SpawnOptions)
    (freshId : String) (runtimeCtor : Except String Unit) (now : Int) :
    MgrState × Except MgrError String :=
  if capReached maxContainers st.containers.length then
    (st, .error .capacityReached)
  else if (lookupC st (opts.idOpt.getD freshId)).isSome then
    (st, .error (.duplicateId (opts.idOpt.getD freshId)))
  else
    match runtimeCtor with
    | .ok _ =>
      -- container.runtime = runtime; runtimeMode detection and npm handle
      -- construction touch only external handles.
      (updateRec (spawnInserted st opts freshId now) (opts.idOpt.getD freshId)
        (fun c0 => setStatusFn { c0 with runtimeReady := true } .ready now),
        .ok (opts.idOpt.getD freshId))
    | .error msg =>
      -- lastError and the transient 'errored' status, then deletion.
      let st2 := updateRec (spawnInserted st opts freshId now)
        (opts.idOpt.getD freshId)
        (fun c0 => setStatusFn { c0 with lastError := some msg } .errored now)
      ({ st2 with containers := eraseRec st2.containers (opts.idOpt.getD freshId) },
        .error (.constructionFailed msg))

/-- `requireContainer` — not-found for absent ids, finalizing error for
`terminated`/`terminating` records. -/
def requireContainer (st : MgrState) (id : String) :
    Except MgrError ContainerRec :=
  match lookupC st id with
  | none => .error (.notFound id)
  | some c =>
    if c.status = .terminated ∨ c.status = .terminating then
      .error (.finalizing id c.status)
    else
      .ok c

/-- `snapshot(containerId)`: look the record up, touch `lastUsedAt` and
`updatedAt`, and return the filesystem snapshot. -/
def snapshotOp (st : MgrState) (id : String) (now : Int) :
    MgrState × Except MgrError VFS :=
  match requireContainer st id with
  | .error e => (st, .error e)
  | .ok c =>
    (updateRec st id fun c0 => { c0 with lastUsedAt := now, updatedAt := now },
      .ok c.vfsContent)

/-- `clone(containerId, options)`: snapshot the source and spawn from it,
inheriting metadata unless overridden. -/
def clone (maxContainers : Option Nat) (st : MgrState) (id : String)
    (opts : SpawnOptions) (freshId : String) (runtimeCtor : Except String Unit)
    (now : Int) : MgrState × Except MgrError String :=
  match requireContainer st id with
  | .error e => (st, .error e)
  | .ok src =>
    spawn maxContainers st
      { opts with
        metadata := opts.metadata <|> src.metadata
        vfsSnapshot := some src.vfsContent }
      freshId runtimeCtor now

/-- Awaiting `container.queue` during teardown: the chained `run` closures
execute one after the other while the status is finalizing.  Each still-queued
operation hits the finalizing check and is cancelled; each running operation
finishes with its own outcome `outFor i` (the gate never interrupts work).
`drainIdx` walks the chain indices in order. -/
def drainIdx (outFor : Nat → OpOutcome) (now : Int) :
    List Nat → ContainerRec × Metrics → ContainerRec × Metrics
  | [], p => p
  | i :: rest, (c, m) =>
    match c.ops.getD i .done with
    | .queued => drainIdx outFor now rest (cancelFn c i, m)
    | .running =>
      drainIdx outFor now rest (finishFn c i (outFor i) now, finishMetrics m (outFor i))
    | _ => drainIdx outFor now rest (c, m)

/-- Drain the whole promise chain of record `id` (no-op on absent ids). -/
def drainState (st : MgrState) (id : String) (outFor : Nat → OpOutcome)
    (now : Int) : MgrState :=
  match lookupC st id with
  | none => st
  | some c =>
    let p := drainIdx outFor now (List.range c.ops.length) (c, st.metrics)
    { containers := (updateRec st id fun _ => p.1).containers
      metrics := p.2 }

/-- The `finalize` closure of `terminate`: best-effort
`runtime?.terminate?.()` (external), status `terminated`, bump
`containersTerminated`, delete the record. -/
def finalizeFn (st : MgrState) (id : String) (now : Int) : MgrState :=
  let st1 := updateRec st id fun c => setStatusFn c .terminated now
  { containers := eraseRec st1.containers id
    metrics := { st1.metrics with
      containersTerminated := st1.metrics.containersTerminated + 1 } }

/-- `terminate(containerId)`.  `outFor` supplies the settlement outcome of any
operation whose work is still in flight when teardown drains the queue. -/
def terminateOp (st : MgrState) (id : String) (outFor : Nat → OpOutcome)
    (now : Int) : MgrState × Bool :=
  match lookupC st id with
  | none => (st, false)
  | some c =>
    if c.status = .terminating then
      -- A teardown is already chained: awaiting `container.queue` completes
      -- it (drain + finalize), then report whether the id is still present.
      let st1 := finalizeFn (drainState st id outFor now) id now
      (st1, !(lookupC st1 id).isSome)
    else if c.status = .terminated then
      ({ st with containers := eraseRec st.containers id }, true)
    else
      let st1 := updateRec st id fun c0 => setStatusFn c0 .terminating now
      let st2 := drainState st1 id outFor now
      (finalizeFn st2 id now, true)

/-- The idle-candidate filter of `evictIdleContainers`. -/
def isIdleCandidate (c : ContainerRec) (now idleTtlMs : Int) : Bool :=
  c.status == .ready &&
  c.activeOperations == 0 &&
  c.pendingOperations == 0 &&
  idleTtlMs ≤ now - c.lastUsedAt

/-- One sweep of `evictIdleContainers(idleTtlMs)`: select the candidates,
then terminate each (emitting `container-evicted` per deleted id). -/
def evictIdleContainers (st : MgrState) (idleTtlMs now : Int)
    (outFor : Nat → OpOutcome) : MgrState :=
  let candidates :=
    (st.containers.filter fun p => isIdleCandidate p.2 now idleTtlMs).map (·.1)
  candidates.foldl (fun acc cid => (terminateOp acc cid outFor now).1) st

/-! ### `runWithControls`: timeout / abort racing -/

/-- A JavaScript `number` as far as the timeout logic observes it: a finite
(integral) value or one of the non-finite values rejected by
`Number.isFinite`. -/
inductive JsNum
  | num (n : Int)
  | posInf
  | negInf
  | nan
deriving DecidableEq, Repr

/-- `Number.isFinite`. -/
def JsNum.isFiniteB : JsNum → Bool
  | .num _ => true
  | _ => false

/-- The timeout actually armed by `runWithControls`: the effective value when
it is finite and strictly positive, nothing otherwise (no `setTimeout` call is
made). -/
def armedTimeout (timeoutMsOpt : Option JsNum) (defaultTimeoutMs : Int) :
    Option Int :=
  let t := timeoutMsOpt.getD (JsNum.num defaultTimeoutMs)
  match t with
  | .num n => if 0 < n then some n else none
  | _ => none

/-- Environment of one dispatched operation: whether the abort signal had
already fired at submission, when (if ever) it fires afterwards, and when (if
ever) the underlying work settles, with its result. -/
structure OpEnv (α : Type) where
  abortedAtStart : Bool
  abortAt : Option Int
  workAt : Option (Int × Except String α)

/-- Settled outcome of `runWithControls`: the first of work / abort / timeout
settles the promise (the `settled` flag makes later events no-ops);
`stillPending` models a promise that never settles. -/
inductive CtrlResult (α : Type)
  | ok (a : α)
  | failed (msg : String)
  | timedOut (timeoutMs : Int)
  | aborted
  | stillPending
deriving DecidableEq, Repr

/-- Race between the abort listener and the armed timeout when the work does
not settle first. -/
def abortOrTimeout (α : Type) : Option Int → Option Int → CtrlResult α
  | none, none => .stillPending
  | some _, none => .aborted
  | none, some t => .timedOut t
  | some ta, some t => if ta ≤ t then .aborted else .timedOut t

/-- `runWithControls(task, options, context)`, as a function of the effective
timeout and the operation environment.  Ties in settlement time are broken in
favour of the work, then the abort signal, then the timer. -/
def runWithControls (α : Type) (timeoutMsOpt : Option JsNum)
    (defaultTimeoutMs : Int) (env : OpEnv α) : CtrlResult α :=
  if env.abortedAtStart then
    .aborted
  else
    let armed := armedTimeout timeoutMsOpt defaultTimeoutMs
    match env.workAt with
    | some (tw, r) =>
      if (env.abortAt.all fun ta => tw ≤ ta) && (armed.all fun t => tw ≤ t) then
        match r with
        | .ok a => .ok a
        | .error msg => .failed msg
      else
        abortOrTimeout α env.abortAt armed
    | none => abortOrTimeout α env.abortAt armed

/-! ### The manager as a transition system

The per-container serialization is built out of promise chaining
(`container.queue.then(run, run)`): a chained `run` closure is invoked by the
event loop exactly when the link in front of it has settled.  The transition
relation below makes every such invocation (and every public API call) one
step; the ghost `ops` field records which links have settled. -/

/-- `enqueue` admission step at the manager level. -/
def mgrSubmit (st : MgrState) (id : String) : MgrState :=
  updateRec st id submitFn

/-- A `run` closure begins its work: record update plus `operationsStarted`. -/
def mgrStart (st : MgrState) (id : String) (i : Nat) (now : Int) : MgrState :=
  let st1 := updateRec st id fun c => startFn c i now
  { st1 with metrics := { st1.metrics with
      operationsStarted := st1.metrics.operationsStarted + 1 } }

/-- A `run` closure hits the finalizing check and rejects without starting. -/
def mgrCancel (st : MgrState) (id : String) (i : Nat) : MgrState :=
  updateRec st id fun c => cancelFn c i

/-- An in-flight operation settles with outcome `out`. -/
def mgrFinish (st : MgrState) (id : String) (i : Nat) (out : OpOutcome)
    (now : Int) : MgrState :=
  { containers := (updateRec st id fun c => finishFn c i out now).containers
    metrics := finishMetrics st.metrics out }

/-- The synchronous head of `terminate`: flip the status to `terminating`
before awaiting the queue. -/
def mgrTermBegin (st : MgrState) (id : String) (now : Int) : MgrState :=
  updateRec st id fun c => setStatusFn c .terminating now

/-- One step of the manager.  `maxC` is the configured `maxContainers`. -/
inductive Step (maxC : Option Nat) : MgrState → MgrState → Prop
  | spawnStep (st : MgrState) (opts : SpawnOptions) (freshId : String)
      (ctor : Except String Unit) (now : Int) :
      Step maxC st (spawn maxC st opts freshId ctor now).1
  | cloneStep (st : MgrState) (id : String) (opts : SpawnOptions)
      (freshId : String) (ctor : Except String Unit) (now : Int) :
      Step maxC st (clone maxC st id opts freshId ctor now).1
  | snapshotStep (st : MgrState) (id : String) (now : Int) :
      Step maxC st (snapshotOp st id now).1
  | submitStep (st : MgrState) (id : String) (c : ContainerRec)
      (h : requireContainer st id = .ok c) :
      Step maxC st (mgrSubmit st id)
  | startStep (st : MgrState) (id : String) (c : ContainerRec) (i : Nat)
      (now : Int) (h : lookupC st id = some c) (hi : runInvocable c i)
      (hs : isFinalizingStatus c.status = false) :
      Step maxC st (mgrStart st id i now)
  | cancelStep (st : MgrState) (id : String) (c : ContainerRec) (i : Nat)
      (h : lookupC st id = some c) (hi : runInvocable c i)
      (hs : isFinalizingStatus c.status = true) :
      Step maxC st (mgrCancel st id i)
  | finishStep (st : MgrState) (id : String) (c : ContainerRec) (i : Nat)
      (out : OpOutcome) (now : Int) (h : lookupC st id = some c)
      (hr : c.ops.getD i .done = .running) :
      Step maxC st (mgrFinish st id i out now)
  | termBeginStep (st : MgrState) (id : String) (c : ContainerRec) (now : Int)
      (h : lookupC st id = some c)
      (hs : isFinalizingStatus c.status = false) :
      Step maxC st (mgrTermBegin st id now)
  | termFinishStep (st : MgrState) (id : String) (c : ContainerRec) (now : Int)
      (h : lookupC st id = some c) (hs : c.status = .terminating)
      (hd : ∀ p ∈ c.ops, settledPhase p = true) :
      Step maxC st (finalizeFn st id now)
  | terminateStep (st : MgrState) (id : String) (outFor : Nat → OpOutcome)
      (now : Int) :
      Step maxC st (terminateOp st id outFor now).1
  | evictStep (st : MgrState) (idleTtlMs now : Int)
      (outFor : Nat → OpOutcome) :
      Step maxC st (evictIdleContainers st idleTtlMs now outFor)

/-- States reachable from a freshly constructed manager. -/
inductive Reachable (maxC : Option Nat) : MgrState → Prop
  | init : Reachable maxC MgrState.init
  | step {st st' : MgrState} : Reachable maxC st → Step maxC st st' →
      Reachable maxC st'

/-! ### Well-formedness invariant -/

/-- Phase of chain link `i` (out of range reads as settled). -/
def phaseAt (ops : List OpPhase) (i : Nat) : OpPhase :=
  ops.getD i .done

def countRunning (ops : List OpPhase) : Nat :=
  ops.countP fun p => p == .running

def countNotDone (ops : List OpPhase) : Nat :=
  ops.countP fun p => !(p == .done)

def countStarted (ops : List OpPhase) : Nat :=
  ops.countP startedPhase

def countCancelled (ops : List OpPhase) : Nat :=
  ops.countP fun p => p == .cancelled

/-- Well-formedness of one record: the explicit counters agree with the ghost
chain, links only leave `queued` after every earlier link settled, the start
log is the identity permutation of the started block, and cancellations only
happen on finalizing containers. -/
structure RecWF (c : ContainerRec) : Prop where
  active_eq : c.activeOperations = countRunning c.ops
  pending_eq : c.pendingOperations = countNotDone c.ops
  chain : ∀ i, i < c.ops.length → phaseAt c.ops i ≠ .queued →
    ∀ j, j < i → settledPhase (phaseAt c.ops j) = true
  log_eq : c.startLog = List.range (countStarted c.ops)
  canc_final : 0 < countCancelled c.ops → isFinalizingStatus c.status = true

/-- Well-formedness of a registry: unique keys, well-formed records. -/
def RegistryWF (cs : List (String × ContainerRec)) : Prop :=
  (cs.map (·.1)).Nodup ∧ ∀ p ∈ cs, RecWF p.2

/-- Well-formedness of the whole manager state. -/
def MgrWF (st : MgrState) : Prop :=
  RegistryWF st.containers

/-- The shared prefix of `execute` / `runFile` / `install`: `requireContainer`
followed by the admission of `enqueue`.  A not-found or finalizing failure
returns before any state (or metric) is touched. -/
def admitOp (st : MgrState) (id : String) : MgrState × Except MgrError Unit :=
  match requireContainer st id with
  | .error e => (st, .error e)
  | .ok _ => (mgrSubmit st id, .ok ())

/-! ### Concrete demonstration states (used to instantiate the theorems) -/

/-- The state after one successful `spawn({id: "c1"})` at time 0. -/
def demoSpawn : MgrState :=
  (spawn none MgrState.init { idOpt := some "c1" } "g1" (Except.ok ()) 0).1

/-- The record held under `"c1"` in `demoSpawn`. -/
def demoReady : ContainerRec :=
  setStatusFn
    { spawnNewRec "c1" { idOpt := some "c1" } 0 with runtimeReady := true }
    .ready 0

/-- `demoSpawn` right after a `terminate("c1")` call flipped the status to
`terminating` (before its queued finalize ran). -/
def demoTerminating : MgrState := mgrTermBegin demoSpawn "c1" 1

/-! ### Generic list and registry helpers -/

theorem countP_eq_of_pointwise {α : Type} (p : α → Bool) :
    ∀ (l : List α) (k : Nat), k ≤ l.length →
      (∀ j (h : j < l.length), (p l[j] = true ↔ j < k)) → l.countP p = k
  | [], k, hk, _ => by simp at hk ⊢; omega
  | a :: l, k, hk, hpt => by
    by_cases hpa : p a = true
    · have h0 : 0 < k := (hpt 0 (by simp)).mp (by simpa using hpa)
      obtain ⟨k', rfl⟩ : ∃ k', k = k' + 1 := ⟨k - 1, by omega⟩
      have htail : l.countP p = k' := by
        refine countP_eq_of_pointwise p l k' (by simp at hk; omega) fun j hj => ?_
        have := hpt (j + 1) (by simp; omega)
        simpa [Nat.succ_lt_succ_iff] using this
      simp [List.countP_cons, hpa, htail]
    · have h0 : ¬ 0 < k := fun h => hpa ((hpt 0 (by simp)).mpr h)
      have hk0 : k = 0 := by omega
      subst hk0
      have htail : l.countP p = 0 := by
        refine countP_eq_of_pointwise p l 0 (by omega) fun j hj => ?_
        have := hpt (j + 1) (by simp; omega)
        simpa using this
      simp [List.countP_cons, hpa, htail]

theorem phaseAt_cons_succ (a : OpPhase) (l : List OpPhase) (i : Nat) :
    phaseAt (a :: l) (i + 1) = phaseAt l i := by
  simp [phaseAt]

theorem running_index_of_countP_pos :
    ∀ (ops : List OpPhase), 0 < countRunning ops →
      ∃ i, i < ops.length ∧ phaseAt ops i = .running
  | [], h => by simp [countRunning] at h
  | a :: l, h => by
    by_cases ha : a = .running
    · exact ⟨0, by simp, by simp [phaseAt, ha]⟩
    · have hl : 0 < countRunning l := by
        simpa [countRunning, List.countP_cons, ha] using h
      obtain ⟨i, hi, hp⟩ := running_index_of_countP_pos l hl
      exact ⟨i + 1, by simpa using Nat.succ_lt_succ hi,
        by rwa [phaseAt_cons_succ]⟩

theorem two_running_of_one_lt_countP :
    ∀ (ops : List OpPhase), 1 < countRunning ops →
      ∃ i j, i < j ∧ j < ops.length ∧
        phaseAt ops i = .running ∧ phaseAt ops j = .running
  | [], h => by simp [countRunning] at h
  | a :: l, h => by
    by_cases ha : a = .running
    · have hl : 0 < countRunning l := by
        unfold countRunning at h ⊢
        rw [List.countP_cons] at h
        simp only [ha, beq_self_eq_true, if_true] at h
        omega
      obtain ⟨i, hi, hp⟩ := running_index_of_countP_pos l hl
      exact ⟨0, i + 1, Nat.succ_pos i, by simpa using Nat.succ_lt_succ hi,
        by simp [phaseAt, ha], by rwa [phaseAt_cons_succ]⟩
    · have hl : 1 < countRunning l := by
        simpa [countRunning, List.countP_cons, ha] using h
      obtain ⟨i, j, hij, hj, hpi, hpj⟩ := two_running_of_one_lt_countP l hl
      exact ⟨i + 1, j + 1, Nat.succ_lt_succ hij,
        by simpa using Nat.succ_lt_succ hj,
        by rwa [phaseAt_cons_succ], by rwa [phaseAt_cons_succ]⟩

theorem lookupS_cons_self {k : String} {b : ContainerRec}
    {es : List (String × ContainerRec)} :
    List.lookup k ((k, b) :: es) = some b := by
  simp [List.lookup_cons]

theorem lookupS_cons_ne {k a : String} (h : k ≠ a) {b : ContainerRec}
    {es : List (String × ContainerRec)} :
    List.lookup k ((a, b) :: es) = List.lookup k es := by
  simp [List.lookup_cons, beq_eq_false_iff_ne.mpr h]

theorem lookup_mapEntry (cs : List (String × ContainerRec)) (id id' : String)
    (f : ContainerRec → ContainerRec) :
    List.lookup id' (cs.map fun p => if p.1 == id then (p.1, f p.2) else p) =
      if id' = id then (List.lookup id' cs).map f else List.lookup id' cs := by
  induction cs with
  | nil => by_cases h : id' = id <;> simp [h]
  | cons a tl ih =>
    obtain ⟨k, c⟩ := a
    simp only [List.map_cons]
    by_cases hk : k = id
    · subst hk
      simp only [beq_self_eq_true, if_true]
      by_cases h' : id' = k
      · subst h'
        simp [lookupS_cons_self]
      · rw [lookupS_cons_ne h', lookupS_cons_ne h', ih]
    · rw [if_neg (by simpa using hk)]
      by_cases h' : id' = k
      · subst h'
        rw [if_neg hk]
        simp [lookupS_cons_self]
      · rw [lookupS_cons_ne h', ih]
        by_cases h2 : id' = id
        · rw [if_pos h2, if_pos h2, lookupS_cons_ne h']
        · rw [if_neg h2, if_neg h2, lookupS_cons_ne h']

theorem lookup_eraseRec (cs : List (String × ContainerRec)) (id id' : String) :
    List.lookup id' (eraseRec cs id) =
      if id' = id then none else List.lookup id' cs := by
  induction cs with
  | nil => by_cases h : id' = id <;> simp [eraseRec, h]
  | cons a tl ih =>
    obtain ⟨k, c⟩ := a
    by_cases hk : k = id
    · subst hk
      have : eraseRec ((k, c) :: tl) k = eraseRec tl k := by
        simp [eraseRec, List.filter_cons]
      rw [this, ih]
      by_cases h' : id' = k
      · simp [h']
      · rw [if_neg h', if_neg h', lookupS_cons_ne h']
    · have : eraseRec ((k, c) :: tl) id = (k, c) :: eraseRec tl id := by
        simp [eraseRec, List.filter_cons, beq_eq_false_iff_ne.mpr hk]
      rw [this]
      by_cases h' : id' = k
      · subst h'
        rw [lookupS_cons_self, lookupS_cons_self, if_neg hk]
      · rw [lookupS_cons_ne h', ih]
        by_cases h2 : id' = id
        · simp [h2]
        · rw [if_neg h2, if_neg h2, lookupS_cons_ne h']

theorem lookup_append_single (cs : List (String × ContainerRec))
    (id id' : String) (c : ContainerRec) :
    List.lookup id' (cs ++ [(id, c)]) =
      match List.lookup id' cs with
      | some c' => some c'
      | none => if id' = id then some c else none := by
  induction cs with
  | nil =>
    by_cases h : id' = id
    · subst h; simp [lookupS_cons_self]
    · simp [lookupS_cons_ne h, h]
  | cons a tl ih =>
    obtain ⟨k, c0⟩ := a
    by_cases h' : id' = k
    · subst h'
      simp [lookupS_cons_self]
    · rw [List.cons_append, lookupS_cons_ne h', lookupS_cons_ne h', ih]

theorem keys_updateRec (st : MgrState) (id : String)
    (f : ContainerRec → ContainerRec) :
    (updateRec st id f).containers.map (·.1) = st.containers.map (·.1) := by
  simp only [updateRec, List.map_map]
  refine List.map_congr_left fun p _ => ?_
  by_cases h : p.1 = id <;> simp [h]

theorem mem_updateRec {st : MgrState} {id : String}
    {f : ContainerRec → ContainerRec} {p : String × ContainerRec}
    (hp : p ∈ (updateRec st id f).containers) :
    ∃ q ∈ st.containers, p = if q.1 = id then (q.1, f q.2) else q := by
  simp only [updateRec, List.mem_map] at hp
  obtain ⟨q, hq, hqe⟩ := hp
  refine ⟨q, hq, ?_⟩
  by_cases h : q.1 = id
  · rw [if_pos h, ← hqe, if_pos (by simpa using h)]
  · rw [if_neg h, ← hqe, if_neg (by simpa using h)]

theorem nodup_keys_eraseRec {cs : List (String × ContainerRec)} {id : String}
    (h : (cs.map (·.1)).Nodup) : ((eraseRec cs id).map (·.1)).Nodup :=
  ((List.filter_sublist cs).map (·.1)).nodup h

theorem lookup_of_mem_of_nodup :
    ∀ {cs : List (String × ContainerRec)}, ((cs.map (·.1)).Nodup) →
      ∀ {p : String × ContainerRec}, p ∈ cs → List.lookup p.1 cs = some p.2
  | [], _, _, hp => by simp at hp
  | a :: tl, hnd, p, hp => by
    rcases List.mem_cons.mp hp with rfl | hp'
    · obtain ⟨k, b⟩ := p
      exact lookupS_cons_self
    · have hh := List.nodup_cons.mp (by rw [List.map_cons] at hnd; exact hnd)
      have hne : p.1 ≠ a.1 := by
        intro he
        exact hh.1 (he ▸ List.mem_map_of_mem (·.1) hp')
      obtain ⟨k, b⟩ := a
      rw [lookupS_cons_ne hne]
      exact lookup_of_mem_of_nodup hh.2 hp'

/-! ### Phase bookkeeping lemmas -/

theorem phaseAt_eq_getElem {ops : List OpPhase} {i : Nat} (h : i < ops.length) :
    phaseAt ops i = ops[i] := by
  simp [phaseAt, List.getElem?_eq_getElem h]

theorem phaseAt_lt_length {ops : List OpPhase} {i : Nat}
    (h : phaseAt ops i ≠ .done) : i < ops.length := by
  by_contra hge
  have hle : ops.length ≤ i := by omega
  have hn : ops[i]? = none := List.getElem?_eq_none hle
  exact h (by simp [phaseAt, hn])

theorem phaseAt_set_self {ops : List OpPhase} {i : Nat} (h : i < ops.length)
    (a : OpPhase) : phaseAt (ops.set i a) i = a := by
  simp [phaseAt, List.getElem?_set_self h]

theorem phaseAt_set_ne {ops : List OpPhase} {i j : Nat} (h : i ≠ j)
    (a : OpPhase) : phaseAt (ops.set i a) j = phaseAt ops j := by
  simp [phaseAt, List.getElem?_set_ne h]

theorem phaseAt_append_left {ops l2 : List OpPhase} {i : Nat}
    (h : i < ops.length) : phaseAt (ops ++ l2) i = phaseAt ops i := by
  simp [phaseAt, List.getElem?_append_left h]

theorem phaseAt_append_self (ops : List OpPhase) (x : OpPhase) :
    phaseAt (ops ++ [x]) ops.length = x := by
  simp [phaseAt, List.getElem?_append_right (Nat.le_refl _)]

theorem settled_ne_queued {p : OpPhase} (h : settledPhase p = true) :
    p ≠ .queued := by
  cases p <;> simp_all [settledPhase]

theorem settled_cases {p : OpPhase} (h : settledPhase p = true) :
    p = .done ∨ p = .cancelled := by
  cases p <;> simp_all [settledPhase]

theorem setStatusFn_ops (c : ContainerRec) (s : Status) (now : Int) :
    (setStatusFn c s now).ops = c.ops := by
  unfold setStatusFn; split <;> rfl

theorem setStatusFn_active (c : ContainerRec) (s : Status) (now : Int) :
    (setStatusFn c s now).activeOperations = c.activeOperations := by
  unfold setStatusFn; split <;> rfl

theorem setStatusFn_pending (c : ContainerRec) (s : Status) (now : Int) :
    (setStatusFn c s now).pendingOperations = c.pendingOperations := by
  unfold setStatusFn; split <;> rfl

theorem setStatusFn_startLog (c : ContainerRec) (s : Status) (now : Int) :
    (setStatusFn c s now).startLog = c.startLog := by
  unfold setStatusFn; split <;> rfl

theorem setStatusFn_status (c : ContainerRec) (s : Status) (now : Int) :
    (setStatusFn c s now).status = s := by
  unfold setStatusFn
  split
  · next h => exact h
  · rfl

theorem setStatusFn_id (c : ContainerRec) (s : Status) (now : Int) :
    (setStatusFn c s now).id = c.id := by
  unfold setStatusFn; split <;> rfl

/-- From the promise-chain guard (predecessor settled) and well-formedness:
every link in front of a still-queued link `i` whose `run` the event loop may
invoke has settled. -/
theorem chain_all_settled {c : ContainerRec} (hwf : RecWF c) {i : Nat}
    (hilen : i < c.ops.length)
    (hprev : i = 0 ∨ settledPhase (phaseAt c.ops (i - 1)) = true) :
    ∀ j, j < i → settledPhase (phaseAt c.ops j) = true := by
  intro j hj
  rcases hprev with rfl | hs
  · omega
  · rcases Nat.lt_or_ge j (i - 1) with hj' | hj'
    · exact hwf.chain (i - 1) (by omega) (settled_ne_queued hs) j hj'
    · have hje : j = i - 1 := by omega
      exact hje ▸ hs

/-- A container that is not finalizing has no cancelled link. -/
theorem no_cancelled_of_not_finalizing {c : ContainerRec} (hwf : RecWF c)
    (hs : isFinalizingStatus c.status = false) :
    ∀ j, phaseAt c.ops j ≠ .cancelled := by
  intro j hj
  have hlen : j < c.ops.length := phaseAt_lt_length (by rw [hj]; intro h; cases h)
  have hpos : 0 < countCancelled c.ops := by
    rw [countCancelled, List.countP_pos_iff]
    exact ⟨c.ops[j], List.getElem_mem hlen, by
      rw [← phaseAt_eq_getElem hlen, hj]; rfl⟩
  rw [hwf.canc_final hpos] at hs
  cases hs

theorem applyFailure_ops (c : ContainerRec) (out : OpOutcome) :
    (applyFailure c out).ops = c.ops := by
  cases out <;> rfl

theorem applyFailure_status (c : ContainerRec) (out : OpOutcome) :
    (applyFailure c out).status = c.status := by
  cases out <;> rfl

theorem applyFailure_startLog (c : ContainerRec) (out : OpOutcome) :
    (applyFailure c out).startLog = c.startLog := by
  cases out <;> rfl

theorem applyFailure_id (c : ContainerRec) (out : OpOutcome) :
    (applyFailure c out).id = c.id := by
  cases out <;> rfl

/-- The link at the front of a still-queued, invocable link is `.done` on a
non-finalizing container (settled and not cancelled). -/
theorem startable_all_done {c : ContainerRec} (hwf : RecWF c) {i : Nat}
    (hq : phaseAt c.ops i = .queued)
    (hprev : i = 0 ∨ settledPhase (phaseAt c.ops (i - 1)) = true)
    (hs : isFinalizingStatus c.status = false) :
    ∀ j, j < i → phaseAt c.ops j = .done := by
  intro j hj
  have hilen : i < c.ops.length := phaseAt_lt_length (by rw [hq]; intro h; cases h)
  have hset := chain_all_settled hwf hilen hprev j hj
  rcases settled_cases hset with h | h
  · exact h
  · exact absurd h (no_cancelled_of_not_finalizing hwf hs j)

/-- Every link behind a queued link is still queued. -/
theorem queued_after_queued {c : ContainerRec} (hwf : RecWF c) {i : Nat}
    (hq : phaseAt c.ops i = .queued) :
    ∀ j, i < j → j < c.ops.length → phaseAt c.ops j = .queued := by
  intro j hij hj
  by_contra hne
  have hsettled := hwf.chain j hj hne i hij
  rw [hq] at hsettled
  simp [settledPhase] at hsettled

/-- On a non-finalizing container with an invocable queued link `i`, nothing
is running and exactly the `i` links in front have started. -/
theorem counts_of_startable {c : ContainerRec} (hwf : RecWF c) {i : Nat}
    (hq : phaseAt c.ops i = .queued)
    (hprev : i = 0 ∨ settledPhase (phaseAt c.ops (i - 1)) = true)
    (hs : isFinalizingStatus c.status = false) :
    countRunning c.ops = 0 ∧ countStarted c.ops = i := by
  have hilen : i < c.ops.length := phaseAt_lt_length (by rw [hq]; intro h; cases h)
  have hdone := startable_all_done hwf hq hprev hs
  have hafter := queued_after_queued hwf hq
  constructor
  · refine countP_eq_of_pointwise _ c.ops 0 (Nat.zero_le _) fun j hj => ?_
    simp only [beq_iff_eq]
    constructor
    · intro hr
      exfalso
      rw [← phaseAt_eq_getElem hj] at hr
      rcases Nat.lt_trichotomy j i with h | h | h
      · rw [hdone j h] at hr; cases hr
      · subst h; rw [hq] at hr; cases hr
      · rw [hafter j h hj] at hr; cases hr
    · intro h; omega
  · refine countP_eq_of_pointwise _ c.ops i (Nat.le_of_lt hilen) fun j hj => ?_
    rw [← phaseAt_eq_getElem hj]
    constructor
    · intro hst
      by_contra hge
      rcases Nat.lt_or_ge i j with h | h
      · rw [hafter j h hj] at hst; simp [startedPhase] at hst
      · have hji : j = i := by omega
        subst hji
        rw [hq] at hst; simp [startedPhase] at hst
    · intro hji
      rw [hdone j hji]; rfl

/-! ### Record-level invariant preservation -/

theorem recWF_submit {c : ContainerRec} (hwf : RecWF c) : RecWF (submitFn c) := by
  refine ⟨?_, ?_, ?_, ?_, ?_⟩
  · simp [submitFn, countRunning, List.countP_append, hwf.active_eq,
      List.countP_cons, countRunning]
  · simp [submitFn, countNotDone, List.countP_append, hwf.pending_eq,
      List.countP_cons]
  · intro x hx hq j hj
    simp only [submitFn, List.length_append, List.length_cons,
      List.length_nil] at hx
    rcases Nat.lt_or_ge x c.ops.length with hlt | hge
    · rw [show (submitFn c).ops = c.ops ++ [.queued] from rfl,
        phaseAt_append_left hlt] at hq
      have hjl : j < c.ops.length := by omega
      rw [show (submitFn c).ops = c.ops ++ [.queued] from rfl,
        phaseAt_append_left hjl]
      exact hwf.chain x hlt hq j hj
    · have hxe : x = c.ops.length := by omega
      subst hxe
      rw [show (submitFn c).ops = c.ops ++ [.queued] from rfl,
        phaseAt_append_self] at hq
      exact absurd rfl hq
  · simp [submitFn, countStarted, List.countP_append, hwf.log_eq,
      List.countP_cons, startedPhase]
  · intro h
    have h' : 0 < countCancelled c.ops := by
      simpa [submitFn, countCancelled, List.countP_append,
        List.countP_cons] using h
    exact hwf.canc_final h'

theorem recWF_start {c : ContainerRec} {i : Nat} {now : Int} (hwf : RecWF c)
    (hi : runInvocable c i) (hs : isFinalizingStatus c.status = false) :
    RecWF (startFn c i now) := by
  obtain ⟨hq, hprev⟩ := hi
  have hq' : phaseAt c.ops i = .queued := hq
  have hilen : i < c.ops.length := phaseAt_lt_length (by rw [hq']; intro h; cases h)
  obtain ⟨hrun0, hstart⟩ := counts_of_startable hwf hq' hprev hs
  have hgi : c.ops[i] = .queued := by rw [← phaseAt_eq_getElem hilen]; exact hq'
  have hops : (startFn c i now).ops = c.ops.set i .running := by
    simp [startFn, setStatusFn_ops]
  have hact : (startFn c i now).activeOperations = c.activeOperations + 1 := by
    simp [startFn, setStatusFn_active]
  have hpend : (startFn c i now).pendingOperations = c.pendingOperations := by
    simp [startFn, setStatusFn_pending]
  have hlog : (startFn c i now).startLog = c.startLog ++ [i] := by
    simp [startFn, setStatusFn_startLog]
  have hstat : (startFn c i now).status = .busy := by
    simp [startFn, setStatusFn_status]
  have hdone := startable_all_done hwf hq' hprev hs
  have hafter := queued_after_queued hwf hq'
  refine ⟨?_, ?_, ?_, ?_, ?_⟩
  · have hone : countRunning (c.ops.set i .running) = 1 := by
      rw [countRunning, List.countP_set _ _ _ _ hilen, hgi]
      rw [countRunning] at hrun0
      simp [hrun0]
    rw [hact, hops, hone, hwf.active_eq, hrun0]
  · rw [hpend, hops, countNotDone, List.countP_set _ _ _ _ hilen, hgi,
      hwf.pending_eq]
    have hpos : 0 < countNotDone c.ops := by
      rw [countNotDone, List.countP_pos_iff]
      exact ⟨c.ops[i], List.getElem_mem hilen, by rw [hgi]; rfl⟩
    rw [countNotDone] at hpos ⊢
    simp only [show ((OpPhase.queued == OpPhase.done) = false) from rfl,
      show ((OpPhase.running == OpPhase.done) = false) from rfl]
    simp
    omega
  · intro x hx hqx j hj
    rw [hops] at hqx ⊢
    rw [hops, List.length_set] at hx
    by_cases hxi : x = i
    · subst hxi
      rw [phaseAt_set_ne (show x ≠ j by omega)]
      rw [hdone j hj]
      rfl
    · rw [phaseAt_set_ne (fun h => hxi h.symm)] at hqx
      rcases Nat.lt_or_ge x i with hxlt | hxgt
      · rw [phaseAt_set_ne (show i ≠ j by omega)]
        rw [hdone j (by omega)]
        rfl
      · have hxi' : i < x := by omega
        rw [hafter x hxi' hx] at hqx
        exact absurd rfl hqx
  · have hnew : countStarted (c.ops.set i .running) = i + 1 := by
      rw [countStarted, List.countP_set _ _ _ _ hilen, hgi]
      rw [countStarted] at hstart
      simp [startedPhase, hstart]
    rw [hlog, hops, hwf.log_eq, hstart, hnew, List.range_succ]
  · intro hpos
    exfalso
    have hc0 : countCancelled c.ops = 0 := by
      by_contra hne
      have hfin := hwf.canc_final (Nat.pos_of_ne_zero hne)
      rw [hfin] at hs; cases hs
    rw [hops, countCancelled, List.countP_set _ _ _ _ hilen, hgi] at hpos
    rw [countCancelled] at hc0
    simp [hc0] at hpos

theorem recWF_cancel {c : ContainerRec} {i : Nat} (hwf : RecWF c)
    (hi : runInvocable c i) (hs : isFinalizingStatus c.status = true) :
    RecWF (cancelFn c i) := by
  obtain ⟨hq, hprev⟩ := hi
  have hq' : phaseAt c.ops i = .queued := hq
  have hilen : i < c.ops.length := phaseAt_lt_length (by rw [hq']; intro h; cases h)
  have hgi : c.ops[i] = .queued := by rw [← phaseAt_eq_getElem hilen]; exact hq'
  have hall := chain_all_settled hwf hilen hprev
  have hafter := queued_after_queued hwf hq'
  refine ⟨?_, ?_, ?_, ?_, ?_⟩
  · show c.activeOperations = countRunning (c.ops.set i .cancelled)
    rw [countRunning, List.countP_set _ _ _ _ hilen, hgi, hwf.active_eq,
      countRunning]
    simp
  · show c.pendingOperations = countNotDone (c.ops.set i .cancelled)
    have hpos : 0 < List.countP (fun p => !(p == OpPhase.done)) c.ops := by
      rw [List.countP_pos_iff]
      exact ⟨c.ops[i], List.getElem_mem hilen, by rw [hgi]; rfl⟩
    rw [countNotDone, List.countP_set _ _ _ _ hilen, hgi, hwf.pending_eq,
      countNotDone]
    simp
    omega
  · intro x hx hqx j hj
    show settledPhase (phaseAt (c.ops.set i .cancelled) j) = true
    rw [show (cancelFn c i).ops = c.ops.set i .cancelled from rfl,
      List.length_set] at hx
    rw [show (cancelFn c i).ops = c.ops.set i .cancelled from rfl] at hqx
    by_cases hxi : x = i
    · subst hxi
      rw [phaseAt_set_ne (show x ≠ j by omega)]
      exact hall j hj
    · rw [phaseAt_set_ne (fun h => hxi h.symm)] at hqx
      rcases Nat.lt_or_ge x i with hxlt | hxgt
      · rw [phaseAt_set_ne (show i ≠ j by omega)]
        exact hwf.chain x hx hqx j hj
      · have hix : i < x := by omega
        rw [hafter x hix hx] at hqx
        exact absurd rfl hqx
  · show c.startLog = List.range (countStarted (c.ops.set i .cancelled))
    rw [countStarted, List.countP_set _ _ _ _ hilen, hgi, hwf.log_eq,
      countStarted]
    simp [startedPhase]
  · intro _
    exact hs

theorem finishCore_status (c : ContainerRec) (i : Nat) (out : OpOutcome)
    (now : Int) : (finishCore c i out now).status = c.status := by
  show (applyFailure c out).status = c.status
  exact applyFailure_status c out

theorem finishCore_startLog (c : ContainerRec) (i : Nat) (out : OpOutcome)
    (now : Int) : (finishCore c i out now).startLog = c.startLog := by
  show (applyFailure c out).startLog = c.startLog
  exact applyFailure_startLog c out

theorem recWF_finishCore {c : ContainerRec} {i : Nat} (out : OpOutcome)
    (now : Int) (hwf : RecWF c) (hr : phaseAt c.ops i = .running) :
    RecWF (finishCore c i out now) := by
  have hilen : i < c.ops.length := phaseAt_lt_length (by rw [hr]; intro h; cases h)
  have hgi : c.ops[i] = .running := by rw [← phaseAt_eq_getElem hilen]; exact hr
  refine ⟨?_, ?_, ?_, ?_, ?_⟩
  · show c.activeOperations - 1 = countRunning (c.ops.set i .done)
    rw [countRunning, List.countP_set _ _ _ _ hilen, hgi, hwf.active_eq,
      countRunning]
    simp
  · show c.pendingOperations - 1 = countNotDone (c.ops.set i .done)
    rw [countNotDone, List.countP_set _ _ _ _ hilen, hgi, hwf.pending_eq,
      countNotDone]
    simp
  · intro x hx hqx j hj
    show settledPhase (phaseAt (c.ops.set i .done) j) = true
    rw [show (finishCore c i out now).ops = c.ops.set i .done from rfl,
      List.length_set] at hx
    rw [show (finishCore c i out now).ops = c.ops.set i .done from rfl] at hqx
    by_cases hxi : x = i
    · subst hxi
      have hchain := hwf.chain x hx (by rw [hr]; intro h; cases h) j hj
      rw [phaseAt_set_ne (show x ≠ j by omega)]
      exact hchain
    · rw [phaseAt_set_ne (fun h => hxi h.symm)] at hqx
      have hchain := hwf.chain x hx hqx j hj
      by_cases hji : i = j
      · subst hji
        rw [phaseAt_set_self hilen]
        rfl
      · rw [phaseAt_set_ne hji]
        exact hchain
  · rw [finishCore_startLog,
      show (finishCore c i out now).ops = c.ops.set i .done from rfl]
    have hpos : 0 < List.countP startedPhase c.ops := by
      rw [List.countP_pos_iff]
      exact ⟨c.ops[i], List.getElem_mem hilen, by rw [hgi]; rfl⟩
    rw [countStarted, List.countP_set _ _ _ _ hilen, hgi, hwf.log_eq,
      countStarted]
    simp [startedPhase]
    congr 1
    omega
  · intro hpos
    rw [show (finishCore c i out now).ops = c.ops.set i .done from rfl,
      countCancelled, List.countP_set _ _ _ _ hilen, hgi] at hpos
    rw [finishCore_status]
    refine hwf.canc_final ?_
    rw [countCancelled]
    simp only [show ((OpPhase.running == OpPhase.cancelled) = false) from rfl,
      show ((OpPhase.done == OpPhase.cancelled) = false) from rfl,
      Bool.false_eq_true, if_false] at hpos
    omega

theorem recWF_finish {c : ContainerRec} {i : Nat} (out : OpOutcome) (now : Int)
    (hwf : RecWF c) (hr : phaseAt c.ops i = .running) :
    RecWF (finishFn c i out now) := by
  have hcore := recWF_finishCore out now hwf hr
  rw [finishFn]
  split
  · exact hcore
  · next hnf =>
    refine ⟨?_, ?_, ?_, ?_, ?_⟩
    · rw [setStatusFn_active, setStatusFn_ops]
      exact hcore.active_eq
    · rw [setStatusFn_pending, setStatusFn_ops]
      exact hcore.pending_eq
    · intro x hx hqx j hj
      rw [setStatusFn_ops] at hx hqx ⊢
      exact hcore.chain x hx hqx j hj
    · rw [setStatusFn_startLog, setStatusFn_ops]
      exact hcore.log_eq
    · intro hpos
      rw [setStatusFn_ops] at hpos
      exact absurd (hcore.canc_final hpos) hnf

theorem recWF_setStatus_final {c : ContainerRec} (hwf : RecWF c) {s : Status}
    (hfin : isFinalizingStatus s = true) (now : Int) :
    RecWF (setStatusFn c s now) := by
  refine ⟨?_, ?_, ?_, ?_, ?_⟩
  · rw [setStatusFn_active, setStatusFn_ops]; exact hwf.active_eq
  · rw [setStatusFn_pending, setStatusFn_ops]; exact hwf.pending_eq
  · intro x hx hqx j hj
    rw [setStatusFn_ops] at hx hqx ⊢
    exact hwf.chain x hx hqx j hj
  · rw [setStatusFn_startLog, setStatusFn_ops]; exact hwf.log_eq
  · intro _
    rw [setStatusFn_status]
    exact hfin

theorem recWF_setStatus_nocancel {c : ContainerRec} (hwf : RecWF c)
    (h0 : countCancelled c.ops = 0) (s : Status) (now : Int) :
    RecWF (setStatusFn c s now) := by
  refine ⟨?_, ?_, ?_, ?_, ?_⟩
  · rw [setStatusFn_active, setStatusFn_ops]; exact hwf.active_eq
  · rw [setStatusFn_pending, setStatusFn_ops]; exact hwf.pending_eq
  · intro x hx hqx j hj
    rw [setStatusFn_ops] at hx hqx ⊢
    exact hwf.chain x hx hqx j hj
  · rw [setStatusFn_startLog, setStatusFn_ops]; exact hwf.log_eq
  · intro hpos
    rw [setStatusFn_ops] at hpos
    rw [h0] at hpos
    cases hpos

theorem cancelFn_status (c : ContainerRec) (i : Nat) :
    (cancelFn c i).status = c.status := rfl

theorem cancelFn_id (c : ContainerRec) (i : Nat) :
    (cancelFn c i).id = c.id := rfl

theorem finishCore_id (c : ContainerRec) (i : Nat) (out : OpOutcome)
    (now : Int) : (finishCore c i out now).id = c.id := by
  show (applyFailure c out).id = c.id
  exact applyFailure_id c out

/-- On a finalizing container the status restore in `finishFn` is skipped. -/
theorem finishFn_final {c : ContainerRec} (i : Nat) (out : OpOutcome)
    (now : Int) (h : isFinalizingStatus c.status = true) :
    finishFn c i out now = finishCore c i out now := by
  rw [finishFn, if_pos (by rw [finishCore_status]; exact h)]

/-- Draining the chain indices `i, i+1, …, i+n-1` of a finalizing,
well-formed record whose first `i` links have settled preserves
well-formedness, the status and the id. -/
theorem drainIdx_wf (outFor : Nat → OpOutcome) (now : Int) :
    ∀ (n i : Nat) (c : ContainerRec) (m : Metrics), RecWF c →
      isFinalizingStatus c.status = true →
      (∀ j, j < i → settledPhase (phaseAt c.ops j) = true) →
      RecWF (drainIdx outFor now (List.range' i n) (c, m)).1 ∧
        (drainIdx outFor now (List.range' i n) (c, m)).1.status = c.status ∧
        (drainIdx outFor now (List.range' i n) (c, m)).1.id = c.id := by
  intro n
  induction n with
  | zero =>
    intro i c m hwf _ _
    exact ⟨hwf, rfl, rfl⟩
  | succ n ih =>
    intro i c m hwf hfin hset
    rw [List.range'_succ]
    show RecWF (drainIdx outFor now (i :: List.range' (i + 1) n) (c, m)).1 ∧ _
    rcases hph : c.ops.getD i .done with _ | _ | _ | _
    · -- queued: the run throws on the finalizing check
      have hinv : runInvocable c i := by
        refine ⟨hph, ?_⟩
        rcases Nat.eq_zero_or_pos i with h0 | hpos
        · exact Or.inl h0
        · exact Or.inr (hset (i - 1) (by omega))
      have hilen : i < c.ops.length :=
        phaseAt_lt_length (by rw [show phaseAt c.ops i = .queued from hph]; intro h; cases h)
      have hwf' := recWF_cancel hwf hinv hfin
      have hset' : ∀ j, j < i + 1 →
          settledPhase (phaseAt (cancelFn c i).ops j) = true := by
        intro j hj
        show settledPhase (phaseAt (c.ops.set i .cancelled) j) = true
        by_cases hji : j = i
        · subst hji
          rw [phaseAt_set_self hilen]
          rfl
        · rw [phaseAt_set_ne (fun h => hji h.symm)]
          exact hset j (by omega)
      have hres := ih (i + 1) (cancelFn c i) m hwf'
        (by rw [cancelFn_status]; exact hfin) hset'
      have hstep : drainIdx outFor now (i :: List.range' (i + 1) n) (c, m) =
          drainIdx outFor now (List.range' (i + 1) n) (cancelFn c i, m) := by
        simp only [drainIdx, hph]
      rw [hstep]
      exact ⟨hres.1, by rw [hres.2.1, cancelFn_status], by rw [hres.2.2, cancelFn_id]⟩
    · -- running: the in-flight work settles with `outFor i`
      have hr : phaseAt c.ops i = .running := hph
      have hilen : i < c.ops.length :=
        phaseAt_lt_length (by rw [hr]; intro h; cases h)
      have hwf' := recWF_finish (outFor i) now hwf hr
      rw [finishFn_final i (outFor i) now hfin] at hwf'
      have hset' : ∀ j, j < i + 1 →
          settledPhase (phaseAt (finishCore c i (outFor i) now).ops j) = true := by
        intro j hj
        show settledPhase (phaseAt (c.ops.set i .done) j) = true
        by_cases hji : j = i
        · subst hji
          rw [phaseAt_set_self hilen]
          rfl
        · rw [phaseAt_set_ne (fun h => hji h.symm)]
          exact hset j (by omega)
      have hres := ih (i + 1) (finishCore c i (outFor i) now)
        (finishMetrics m (outFor i)) hwf'
        (by rw [finishCore_status]; exact hfin) hset'
      have hstep : drainIdx outFor now (i :: List.range' (i + 1) n) (c, m) =
          drainIdx outFor now (List.range' (i + 1) n)
            (finishFn c i (outFor i) now, finishMetrics m (outFor i)) := by
        simp only [drainIdx, hph]
      rw [hstep, finishFn_final i (outFor i) now hfin]
      exact ⟨hres.1, by rw [hres.2.1, finishCore_status],
        by rw [hres.2.2, finishCore_id]⟩
    · -- done: already settled, nothing to do
      have hset' : ∀ j, j < i + 1 → settledPhase (phaseAt c.ops j) = true := by
        intro j hj
        by_cases hji : j = i
        · subst hji
          rw [show phaseAt c.ops j = .done from hph]
          rfl
        · exact hset j (by omega)
      have hres := ih (i + 1) c m hwf hfin hset'
      have hstep : drainIdx outFor now (i :: List.range' (i + 1) n) (c, m) =
          drainIdx outFor now (List.range' (i + 1) n) (c, m) := by
        simp only [drainIdx, hph]
      rw [hstep]
      exact hres
    · -- cancelled: already settled, nothing to do
      have hset' : ∀ j, j < i + 1 → settledPhase (phaseAt c.ops j) = true := by
        intro j hj
        by_cases hji : j = i
        · subst hji
          rw [show phaseAt c.ops j = .cancelled from hph]
          rfl
        · exact hset j (by omega)
      have hres := ih (i + 1) c m hwf hfin hset'
      have hstep : drainIdx outFor now (i :: List.range' (i + 1) n) (c, m) =
          drainIdx outFor now (List.range' (i + 1) n) (c, m) := by
        simp only [drainIdx, hph]
      rw [hstep]
      exact hres

/-! ### Manager-level invariant preservation -/

theorem mem_of_lookup :
    ∀ {cs : List (String × ContainerRec)} {k : String} {b : ContainerRec},
      List.lookup k cs = some b → (k, b) ∈ cs
  | [], _, _, h => by simp at h
  | (a, c) :: tl, k, b, h => by
    by_cases hk : k = a
    · subst hk
      rw [lookupS_cons_self] at h
      injection h with h
      subst h
      exact List.mem_cons_self _ _
    · rw [lookupS_cons_ne hk] at h
      exact List.mem_cons_of_mem _ (mem_of_lookup h)

theorem lookupC_updateRec (st : MgrState) (id id' : String)
    (f : ContainerRec → ContainerRec) :
    lookupC (updateRec st id f) id' =
      if id' = id then (lookupC st id').map f else lookupC st id' :=
  lookup_mapEntry st.containers id id' f

theorem lookupC_eq_of_mem {st : MgrState} (hnd : (st.containers.map (·.1)).Nodup)
    {id : String} {c c' : ContainerRec} (hl : lookupC st id = some c)
    (hm : (id, c') ∈ st.containers) : c' = c := by
  have hlm := lookup_of_mem_of_nodup hnd hm
  rw [show List.lookup ((id, c').1) st.containers = lookupC st id from rfl,
    hl] at hlm
  injection hlm with h
  exact h.symm

theorem mgrWF_updateRec {st : MgrState} {id : String}
    {f : ContainerRec → ContainerRec} (hwf : MgrWF st)
    (hf : ∀ q ∈ st.containers, q.1 = id → RecWF (f q.2)) :
    MgrWF (updateRec st id f) := by
  constructor
  · rw [show (updateRec st id f).containers.map (·.1) =
      st.containers.map (·.1) from keys_updateRec st id f]
    exact hwf.1
  · intro p hp
    obtain ⟨q, hq, hpe⟩ := mem_updateRec hp
    by_cases h : q.1 = id
    · rw [hpe, if_pos h]
      exact hf q hq h
    · rw [hpe, if_neg h]
      exact hwf.2 q hq

theorem mgrWF_updateRec_all {st : MgrState} {id : String}
    {f : ContainerRec → ContainerRec} (hwf : MgrWF st)
    (hf : ∀ c, RecWF c → RecWF (f c)) : MgrWF (updateRec st id f) :=
  mgrWF_updateRec hwf fun q hq _ => hf q.2 (hwf.2 q hq)

theorem mgrWF_updateRec_lookup {st : MgrState} {id : String}
    {f : ContainerRec → ContainerRec} {c : ContainerRec} (hwf : MgrWF st)
    (hc : lookupC st id = some c) (hrec : RecWF (f c)) :
    MgrWF (updateRec st id f) := by
  refine mgrWF_updateRec hwf fun q hq hqid => ?_
  obtain ⟨k, b⟩ := q
  simp only at hqid
  subst hqid
  have hbc : b = c := lookupC_eq_of_mem hwf.1 hc hq
  rw [show ((k, b).2 : ContainerRec) = b from rfl, hbc]
  exact hrec

theorem registryWF_erase {cs : List (String × ContainerRec)}
    (h : RegistryWF cs) (id : String) : RegistryWF (eraseRec cs id) :=
  ⟨nodup_keys_eraseRec h.1, fun p hp => h.2 p (List.mem_of_mem_filter hp)⟩

/-- The record built by `spawn` is well-formed (no operations yet). -/
theorem recWF_of_empty_ops {c : ContainerRec} (hops : c.ops = [])
    (hact : c.activeOperations = 0) (hpend : c.pendingOperations = 0)
    (hlog : c.startLog = []) : RecWF c := by
  refine ⟨?_, ?_, ?_, ?_, ?_⟩
  · rw [hops, hact]; rfl
  · rw [hops, hpend]; rfl
  · intro x hx
    rw [hops] at hx
    simp at hx
  · rw [hops, hlog]; rfl
  · intro hpos
    rw [hops] at hpos
    simp [countCancelled] at hpos

theorem recWF_touch {c : ContainerRec} (hwf : RecWF c) (t u : Int) :
    RecWF { c with lastUsedAt := t, updatedAt := u } := by
  refine ⟨hwf.active_eq, hwf.pending_eq, hwf.chain, hwf.log_eq, hwf.canc_final⟩

theorem registryWF_append_new {cs : List (String × ContainerRec)}
    (hwf : RegistryWF cs) {id : String} {c : ContainerRec}
    (hl : List.lookup id cs = none) (hc : RecWF c) :
    RegistryWF (cs ++ [(id, c)]) := by
  constructor
  · rw [List.map_append, List.nodup_append]
    refine ⟨hwf.1, by simp, ?_⟩
    intro a ha hb
    simp only [List.map_cons, List.map_nil, List.mem_singleton] at hb
    subst hb
    rw [List.lookup_eq_none_iff] at hl
    obtain ⟨p, hp, hpe⟩ := List.mem_map.mp ha
    have := hl p hp
    rw [hpe] at this
    simp at this
  · intro p hp
    rcases List.mem_append.mp hp with h | h
    · exact hwf.2 p h
    · simp only [List.mem_singleton] at h
      subst h
      exact hc

theorem mgrWF_drainState {st : MgrState} {id : String} (hwf : MgrWF st)
    (outFor : Nat → OpOutcome) (now : Int)
    (hfin : ∀ c, lookupC st id = some c → isFinalizingStatus c.status = true) :
    MgrWF (drainState st id outFor now) := by
  unfold drainState
  cases hl : lookupC st id with
  | none => exact hwf
  | some c =>
    have hcwf : RecWF c := hwf.2 (id, c) (mem_of_lookup hl)
    have hdrain := drainIdx_wf outFor now c.ops.length 0 c st.metrics hcwf
      (hfin c hl) (by intro j hj; omega)
    rw [← List.range_eq_range'] at hdrain
    show MgrWF (updateRec st id fun _ =>
      (drainIdx outFor now (List.range c.ops.length) (c, st.metrics)).1)
    exact mgrWF_updateRec_lookup hwf hl hdrain.1

theorem mgrWF_finalize {st : MgrState} (hwf : MgrWF st) (id : String)
    (now : Int) : MgrWF (finalizeFn st id now) := by
  have h1 : MgrWF (updateRec st id fun c => setStatusFn c .terminated now) :=
    mgrWF_updateRec_all hwf fun c hc => recWF_setStatus_final hc
      (show isFinalizingStatus Status.terminated = true from rfl) now
  exact registryWF_erase h1 id

theorem mgrWF_terminateOp (st : MgrState) (id : String)
    (outFor : Nat → OpOutcome) (now : Int) (hwf : MgrWF st) :
    MgrWF (terminateOp st id outFor now).1 := by
  unfold terminateOp
  cases hl : lookupC st id with
  | none => exact hwf
  | some c =>
    by_cases ht : c.status = .terminating
    · simp only [if_pos ht]
      refine mgrWF_finalize (mgrWF_drainState hwf outFor now ?_) id now
      intro c' hc'
      rw [hl] at hc'
      injection hc' with hc'
      subst hc'
      rw [ht]
      rfl
    · simp only [if_neg ht]
      by_cases ht2 : c.status = .terminated
      · simp only [if_pos ht2]
        exact registryWF_erase hwf id
      · simp only [if_neg ht2]
        have h1 : MgrWF (updateRec st id fun c0 => setStatusFn c0 .terminating now) :=
          mgrWF_updateRec_all hwf fun c0 hc0 => recWF_setStatus_final hc0
            (show isFinalizingStatus Status.terminating = true from rfl) now
        refine mgrWF_finalize (mgrWF_drainState h1 outFor now ?_) id now
        intro c' hc'
        rw [lookupC_updateRec, if_pos rfl, hl] at hc'
        injection hc' with hc'
        subst hc'
        rw [setStatusFn_status]
        rfl

theorem mgrWF_evict (st : MgrState) (idleTtlMs now : Int)
    (outFor : Nat → OpOutcome) (hwf : MgrWF st) :
    MgrWF (evictIdleContainers st idleTtlMs now outFor) := by
  unfold evictIdleContainers
  have hgen : ∀ (ids : List String) (st0 : MgrState), MgrWF st0 →
      MgrWF (ids.foldl (fun acc cid => (terminateOp acc cid outFor now).1) st0) := by
    intro ids
    induction ids with
    | nil => intro st0 h; exact h
    | cons a tl ih =>
      intro st0 h
      exact ih _ (mgrWF_terminateOp st0 a outFor now h)
  exact hgen _ st hwf

theorem mgrWF_spawnInserted (st : MgrState) (opts : SpawnOptions)
    (freshId : String) (now : Int) (hwf : MgrWF st)
    (hl : lookupC st (opts.idOpt.getD freshId) = none) :
    MgrWF (spawnInserted st opts freshId now) :=
  registryWF_append_new hwf hl (recWF_of_empty_ops rfl rfl rfl rfl)

theorem lookup_spawnInserted (st : MgrState) (opts : SpawnOptions)
    (freshId : String) (now : Int)
    (hl : lookupC st (opts.idOpt.getD freshId) = none) :
    lookupC (spawnInserted st opts freshId now) (opts.idOpt.getD freshId) =
      some (spawnNewRec (opts.idOpt.getD freshId) opts now) := by
  show List.lookup _ (st.containers ++ [_]) = _
  rw [lookup_append_single,
    show List.lookup (opts.idOpt.getD freshId) st.containers = none from hl,
    if_pos rfl]

theorem lookupC_none_of_not_isSome {st : MgrState} {id : String}
    (h : ¬ (lookupC st id).isSome = true) : lookupC st id = none := by
  cases hc : lookupC st id with
  | none => rfl
  | some c => rw [hc] at h; simp at h

theorem mgrWF_spawn (maxC : Option Nat) (st : MgrState) (opts : SpawnOptions)
    (freshId : String) (ctor : Except String Unit) (now : Int)
    (hwf : MgrWF st) : MgrWF (spawn maxC st opts freshId ctor now).1 := by
  unfold spawn
  by_cases hcap : capReached maxC st.containers.length = true
  · rw [if_pos hcap]
    exact hwf
  · rw [if_neg hcap]
    by_cases hdup : (lookupC st (opts.idOpt.getD freshId)).isSome = true
    · rw [if_pos hdup]
      exact hwf
    · rw [if_neg hdup]
      have hl := lookupC_none_of_not_isSome hdup
      have hwf1 := mgrWF_spawnInserted st opts freshId now hwf hl
      have hlk := lookup_spawnInserted st opts freshId now hl
      cases ctor with
      | ok u =>
        show MgrWF (updateRec (spawnInserted st opts freshId now)
          (opts.idOpt.getD freshId)
          (fun c0 => setStatusFn { c0 with runtimeReady := true } .ready now))
        refine mgrWF_updateRec_lookup hwf1 hlk ?_
        show RecWF (setStatusFn
          { spawnNewRec (opts.idOpt.getD freshId) opts now with
            runtimeReady := true } .ready now)
        refine recWF_setStatus_nocancel ?_ ?_ _ now
        · exact recWF_of_empty_ops rfl rfl rfl rfl
        · rfl
      | error msg =>
        show RegistryWF (eraseRec (updateRec (spawnInserted st opts freshId now)
          (opts.idOpt.getD freshId)
          (fun c0 => setStatusFn { c0 with lastError := some msg } .errored now)).containers
          (opts.idOpt.getD freshId))
        refine registryWF_erase ?_ _
        show MgrWF (updateRec (spawnInserted st opts freshId now)
          (opts.idOpt.getD freshId)
          (fun c0 => setStatusFn { c0 with lastError := some msg } .errored now))
        refine mgrWF_updateRec_lookup hwf1 hlk ?_
        show RecWF (setStatusFn
          { spawnNewRec (opts.idOpt.getD freshId) opts now with
            lastError := some msg } .errored now)
        refine recWF_setStatus_nocancel ?_ ?_ _ now
        · exact recWF_of_empty_ops rfl rfl rfl rfl
        · rfl

theorem mgrWF_snapshotOp (st : MgrState) (id : String) (now : Int)
    (hwf : MgrWF st) : MgrWF (snapshotOp st id now).1 := by
  unfold snapshotOp
  cases hr : requireContainer st id with
  | error e => exact hwf
  | ok c =>
    exact mgrWF_updateRec_all hwf fun c0 hc0 => recWF_touch hc0 now now

theorem mgrWF_clone (maxC : Option Nat) (st : MgrState) (id : String)
    (opts : SpawnOptions) (freshId : String) (ctor : Except String Unit)
    (now : Int) (hwf : MgrWF st) :
    MgrWF (clone maxC st id opts freshId ctor now).1 := by
  unfold clone
  cases hr : requireContainer st id with
  | error e => exact hwf
  | ok src => exact mgrWF_spawn maxC st _ freshId ctor now hwf

/-- Every transition of the manager preserves well-formedness. -/
theorem step_preserves_wf {maxC : Option Nat} {st st' : MgrState}
    (hst : Step maxC st st') (hwf : MgrWF st) : MgrWF st' := by
  cases hst with
  | spawnStep opts freshId ctor now =>
    exact mgrWF_spawn maxC st opts freshId ctor now hwf
  | cloneStep id opts freshId ctor now =>
    exact mgrWF_clone maxC st id opts freshId ctor now hwf
  | snapshotStep id now => exact mgrWF_snapshotOp st id now hwf
  | submitStep id c h =>
    exact mgrWF_updateRec_all hwf fun c0 hc0 => recWF_submit hc0
  | startStep id c i now h hi hs =>
    have hcwf : RecWF c := hwf.2 (id, c) (mem_of_lookup h)
    show MgrWF (updateRec st id fun c0 => startFn c0 i now)
    exact mgrWF_updateRec_lookup hwf h (recWF_start hcwf hi hs)
  | cancelStep id c i h hi hs =>
    have hcwf : RecWF c := hwf.2 (id, c) (mem_of_lookup h)
    show MgrWF (updateRec st id fun c0 => cancelFn c0 i)
    exact mgrWF_updateRec_lookup hwf h (recWF_cancel hcwf hi hs)
  | finishStep id c i out now h hr =>
    have hcwf : RecWF c := hwf.2 (id, c) (mem_of_lookup h)
    show MgrWF (updateRec st id fun c0 => finishFn c0 i out now)
    exact mgrWF_updateRec_lookup hwf h (recWF_finish out now hcwf hr)
  | termBeginStep id c now h hs =>
    exact mgrWF_updateRec_all hwf fun c0 hc0 => recWF_setStatus_final hc0
      (show isFinalizingStatus Status.terminating = true from rfl) now
  | termFinishStep id c now h hs hd => exact mgrWF_finalize hwf id now
  | terminateStep id outFor now => exact mgrWF_terminateOp st id outFor now hwf
  | evictStep idleTtlMs now outFor =>
    exact mgrWF_evict st idleTtlMs now outFor hwf

/-- Every reachable manager state is well-formed. -/
theorem reachable_wf {maxC : Option Nat} {st : MgrState}
    (h : Reachable maxC st) : MgrWF st := by
  induction h with
  | init =>
    refine ⟨by simp [MgrState.init], ?_⟩
    intro p hp
    simp [MgrState.init] at hp
  | step hr hs ih => exact step_preserves_wf hs ih

/-! ### Locality of teardown and the terminate contract -/

theorem lookupC_drainState_ne (st : MgrState) (id' : String)
    (outFor : Nat → OpOutcome) (now : Int) (id : String) (h : id ≠ id') :
    lookupC (drainState st id' outFor now) id = lookupC st id := by
  unfold drainState
  cases hl : lookupC st id' with
  | none => rfl
  | some c =>
    show lookupC (updateRec st id' fun _ =>
      (drainIdx outFor now (List.range c.ops.length) (c, st.metrics)).1) id =
      lookupC st id
    rw [lookupC_updateRec, if_neg h]

theorem lookupC_finalize_ne (st : MgrState) (id' : String) (now : Int)
    (id : String) (h : id ≠ id') :
    lookupC (finalizeFn st id' now) id = lookupC st id := by
  show List.lookup id (eraseRec (updateRec st id' _).containers id') = _
  rw [lookup_eraseRec, if_neg h]
  rw [show List.lookup id (updateRec st id' fun c => setStatusFn c .terminated now).containers =
    lookupC (updateRec st id' fun c => setStatusFn c .terminated now) id from rfl]
  rw [lookupC_updateRec, if_neg h]

theorem lookupC_finalize_self (st : MgrState) (id : String) (now : Int) :
    lookupC (finalizeFn st id now) id = none := by
  show List.lookup id (eraseRec _ id) = none
  rw [lookup_eraseRec, if_pos rfl]

theorem lookupC_terminateOp_ne (st : MgrState) (id' : String)
    (outFor : Nat → OpOutcome) (now : Int) (id : String) (h : id ≠ id') :
    lookupC (terminateOp st id' outFor now).1 id = lookupC st id := by
  unfold terminateOp
  cases hl : lookupC st id' with
  | none => rfl
  | some c =>
    by_cases h1 : c.status = .terminating
    · simp only [if_pos h1]
      rw [lookupC_finalize_ne _ _ _ _ h, lookupC_drainState_ne _ _ _ _ _ h]
    · simp only [if_neg h1]
      by_cases h2 : c.status = .terminated
      · simp only [if_pos h2]
        show List.lookup id (eraseRec st.containers id') = _
        rw [lookup_eraseRec, if_neg h]
        rfl
      · simp only [if_neg h2]
        rw [lookupC_finalize_ne _ _ _ _ h, lookupC_drainState_ne _ _ _ _ _ h,
          lookupC_updateRec, if_neg h]

/-- `terminate` on a present id always ends with the id deleted and reports
`true`. -/
theorem terminateOp_deletes (st : MgrState) (id : String)
    (outFor : Nat → OpOutcome) (now : Int) (c : ContainerRec)
    (hl : lookupC st id = some c) :
    lookupC (terminateOp st id outFor now).1 id = none ∧
      (terminateOp st id outFor now).2 = true := by
  unfold terminateOp
  rw [hl]
  by_cases h1 : c.status = .terminating
  · simp only [if_pos h1]
    refine ⟨lookupC_finalize_self _ _ _, ?_⟩
    show (!(lookupC (finalizeFn (drainState st id outFor now) id now) id).isSome) = true
    rw [lookupC_finalize_self]
    rfl
  · simp only [if_neg h1]
    by_cases h2 : c.status = .terminated
    · simp only [if_pos h2]
      refine ⟨?_, trivial⟩
      show List.lookup id (eraseRec st.containers id) = none
      rw [lookup_eraseRec, if_pos rfl]
    · simp only [if_neg h2]
      exact ⟨lookupC_finalize_self _ _ _, trivial⟩

/-- Folding `terminate` over a list of ids never resurrects an absent id. -/
theorem lookup_foldTerm_none (outFor : Nat → OpOutcome) (now : Int) :
    ∀ (ids : List String) (st : MgrState) (id : String),
      lookupC st id = none →
      lookupC (ids.foldl (fun acc cid => (terminateOp acc cid outFor now).1) st)
        id = none
  | [], st, id, h => h
  | a :: tl, st, id, h => by
    rw [List.foldl_cons]
    refine lookup_foldTerm_none outFor now tl _ id ?_
    by_cases hia : id = a
    · subst hia
      unfold terminateOp
      rw [h]
      exact h
    · rw [lookupC_terminateOp_ne _ _ _ _ _ hia]
      exact h

theorem lookup_foldTerm_mem (outFor : Nat → OpOutcome) (now : Int) :
    ∀ (ids : List String) (st : MgrState) (id : String), id ∈ ids →
      lookupC (ids.foldl (fun acc cid => (terminateOp acc cid outFor now).1) st)
        id = none
  | [], _, _, h => by simp at h
  | a :: tl, st, id, h => by
    rw [List.foldl_cons]
    by_cases hia : id = a
    · subst hia
      have hgone : lookupC (terminateOp st id outFor now).1 id = none := by
        cases hl : lookupC st id with
        | none =>
          unfold terminateOp
          rw [hl]
          exact hl
        | some c => exact (terminateOp_deletes st id outFor now c hl).1
      exact lookup_foldTerm_none outFor now tl _ id hgone
    · rcases List.mem_cons.mp h with he | htl
      · exact absurd he hia
      · exact lookup_foldTerm_mem outFor now tl _ id htl

theorem lookup_foldTerm_notmem (outFor : Nat → OpOutcome) (now : Int) :
    ∀ (ids : List String) (st : MgrState) (id : String), id ∉ ids →
      lookupC (ids.foldl (fun acc cid => (terminateOp acc cid outFor now).1) st)
        id = lookupC st id
  | [], _, _, _ => rfl
  | a :: tl, st, id, h => by
    rw [List.foldl_cons]
    have hia : id ≠ a := fun he => h (he ▸ List.mem_cons_self a tl)
    rw [lookup_foldTerm_notmem outFor now tl _ id (fun htl => h (List.mem_cons_of_mem a htl)),
      lookupC_terminateOp_ne _ _ _ _ _ hia]

/-! ### Corollaries of well-formedness -/

theorem countRunning_le_one {c : ContainerRec} (hwf : RecWF c) :
    countRunning c.ops ≤ 1 := by
  by_contra h
  obtain ⟨i, j, hij, hj, hpi, hpj⟩ :=
    two_running_of_one_lt_countP c.ops (by omega)
  have hset := hwf.chain j hj (by rw [hpj]; intro hx; cases hx) i hij
  rw [hpi] at hset
  simp [settledPhase] at hset

theorem countRunning_le_countNotDone (ops : List OpPhase) :
    countRunning ops ≤ countNotDone ops := by
  refine List.countP_mono_left fun p _ hp => ?_
  cases p <;> simp_all

/-! ### The claims -/

/-- Claim C1: in every reachable manager state, for every container, at most
one operation is running at any instant (no two operations' executions
overlap), the temporal start order recorded in `startLog` is exactly the
submission order `0, 1, 2, …` (start order = submission order), and an
operation only leaves the queued phase after every earlier operation on that
container has settled (a later operation's work begins only after the earlier
operation succeeded or failed). -/
theorem claim_C1_fifo_no_overlap {maxC : Option Nat} {st : MgrState}
    (h : Reachable maxC st) :
    ∀ id c, lookupC st id = some c →
      countRunning c.ops ≤ 1 ∧
      c.startLog = List.range (countStarted c.ops) ∧
      (∀ i, i < c.ops.length → phaseAt c.ops i ≠ .queued →
        ∀ j, j < i → settledPhase (phaseAt c.ops j) = true) := by
  intro id c hl
  have hwf := (reachable_wf h).2 (id, c) (mem_of_lookup hl)
  exact ⟨countRunning_le_one hwf, hwf.log_eq, hwf.chain⟩

theorem claim_C1_witness :
    lookupC demoSpawn "c1" = some demoReady ∧
    countRunning demoReady.ops ≤ 1 ∧
    demoReady.startLog = List.range (countStarted demoReady.ops) := by
  have hreach : Reachable none demoSpawn :=
    Reachable.step Reachable.init
      (Step.spawnStep MgrState.init { idOpt := some "c1" } "g1" (Except.ok ()) 0)
  have hl : lookupC demoSpawn "c1" = some demoReady := by decide
  have hc := claim_C1_fifo_no_overlap hreach "c1" demoReady hl
  exact ⟨hl, hc.1, hc.2.1⟩

/-- Claim C2: in every reachable manager state, every container record has
`activeOperations ∈ {0, 1}` and `pendingOperations ≥ activeOperations`; since
reachability is closed under every operation of the manager (spawn, submit,
start, finish, cancel, snapshot, clone, terminate, eviction), each of them
preserves this invariant. -/
theorem claim_C2_counter_invariant {maxC : Option Nat} {st : MgrState}
    (h : Reachable maxC st) :
    ∀ id c, lookupC st id = some c →
      c.activeOperations ≤ 1 ∧ c.activeOperations ≤ c.pendingOperations := by
  intro id c hl
  have hwf := (reachable_wf h).2 (id, c) (mem_of_lookup hl)
  constructor
  · rw [hwf.active_eq]
    exact countRunning_le_one hwf
  · rw [hwf.active_eq, hwf.pending_eq]
    exact countRunning_le_countNotDone c.ops

theorem claim_C2_witness :
    lookupC demoSpawn "c1" = some demoReady ∧
    demoReady.activeOperations ≤ 1 ∧
    demoReady.activeOperations ≤ demoReady.pendingOperations := by
  have hreach : Reachable none demoSpawn :=
    Reachable.step Reachable.init
      (Step.spawnStep MgrState.init { idOpt := some "c1" } "g1" (Except.ok ()) 0)
  have hl : lookupC demoSpawn "c1" = some demoReady := by decide
  exact ⟨hl, claim_C2_counter_invariant hreach "c1" demoReady hl⟩

/-- Claim C3: if a timeout is armed (effective `timeoutMs` finite and
positive, value `T`) and the work has not settled by `T` (nor has the abort
signal fired by then), the operation settles — unblocking the caller — with a
timeout outcome carrying the configured duration `T`; moreover a finished
operation (here: finished by timeout) settles its chain link, so the next
queued operation on the container becomes invocable (the serialization slot is
released).  Nothing in the gate interrupts the underlying work. -/
theorem claim_C3_timeout (α : Type) (timeoutMsOpt : Option JsNum)
    (defaultMs : Int) (env : OpEnv α) (T : Int)
    (hT : armedTimeout timeoutMsOpt defaultMs = some T)
    (hstart : env.abortedAtStart = false)
    (hwork : ∀ tw r, env.workAt = some (tw, r) → T < tw)
    (habort : ∀ ta, env.abortAt = some ta → T < ta) :
    runWithControls α timeoutMsOpt defaultMs env = .timedOut T ∧
    (∀ (c : ContainerRec) (i : Nat) (now : Int),
      phaseAt c.ops i = .running → phaseAt c.ops (i + 1) = .queued →
      runInvocable (finishFn c i (.timeout T) now) (i + 1)) := by
  constructor
  · cases hw : env.workAt with
    | none =>
      cases ha : env.abortAt with
      | none => simp [runWithControls, hstart, hT, hw, ha, abortOrTimeout]
      | some ta =>
        have hta : ¬ (ta ≤ T) := by have := habort ta ha; omega
        simp [runWithControls, hstart, hT, hw, ha, abortOrTimeout, hta]
    | some p =>
      obtain ⟨tw, r⟩ := p
      have htw : ¬ (tw ≤ T) := by have := hwork tw r hw; omega
      cases ha : env.abortAt with
      | none => simp [runWithControls, hstart, hT, hw, ha, abortOrTimeout, htw]
      | some ta =>
        have hta : ¬ (ta ≤ T) := by have := habort ta ha; omega
        simp [runWithControls, hstart, hT, hw, ha, abortOrTimeout, htw, hta]
  · intro c i now hrun hq
    have hilen : i < c.ops.length :=
      phaseAt_lt_length (by rw [hrun]; intro hx; cases hx)
    have hops : (finishFn c i (.timeout T) now).ops = c.ops.set i .done := by
      unfold finishFn
      split
      · rfl
      · rw [setStatusFn_ops]
        rfl
    constructor
    · show (finishFn c i (.timeout T) now).ops.getD (i + 1) .done = .queued
      rw [show (finishFn c i (.timeout T) now).ops.getD (i + 1) .done =
        phaseAt (finishFn c i (.timeout T) now).ops (i + 1) from rfl, hops,
        phaseAt_set_ne (by omega)]
      exact hq
    · right
      rw [show (i + 1 - 1) = i from rfl,
        show (finishFn c i (.timeout T) now).ops.getD i .done =
          phaseAt (finishFn c i (.timeout T) now).ops i from rfl, hops,
        phaseAt_set_self hilen]
      rfl

theorem claim_C3_witness :
    armedTimeout (some (.num 25)) 30000 = some 25 ∧
    runWithControls Unit (some (.num 25)) 30000
      ⟨false, none, none⟩ = .timedOut 25 ∧
    runInvocable
      (finishFn { demoReady with
        ops := [.running, .queued]
        activeOperations := 1
        pendingOperations := 2 } 0 (.timeout 25) 7) 1 := by
  have hc := claim_C3_timeout Unit (some (.num 25)) 30000 ⟨false, none, none⟩ 25
    (by decide) rfl
    (by intro tw r hx; simp at hx)
    (by intro ta hx; simp at hx)
  refine ⟨by decide, hc.1, ?_⟩
  exact hc.2 _ 0 7 (by decide) (by decide)

/-- Claim C9: when the submitted `timeoutMs` is zero, negative or non-finite
(`Infinity`, `-Infinity`, `NaN`), no timeout is armed: the operation can never
settle with a timeout outcome, and if the work never settles and no abort
signal fires it stays pending forever (failing only by abort or by a
propagated work error otherwise). -/
theorem claim_C9_no_timeout (α : Type) (t : JsNum) (defaultMs : Int)
    (hbad : (∃ n, t = .num n ∧ n ≤ 0) ∨ t = .posInf ∨ t = .negInf ∨ t = .nan) :
    armedTimeout (some t) defaultMs = none ∧
    (∀ (env : OpEnv α) (T : Int),
      runWithControls α (some t) defaultMs env ≠ .timedOut T) ∧
    (∀ env : OpEnv α, env.abortedAtStart = false → env.abortAt = none →
      env.workAt = none →
      runWithControls α (some t) defaultMs env = .stillPending) := by
  have harm : armedTimeout (some t) defaultMs = none := by
    rcases hbad with ⟨n, rfl, hn⟩ | rfl | rfl | rfl
    · unfold armedTimeout
      simp only [Option.getD_some]
      rw [if_neg (by omega)]
    · rfl
    · rfl
    · rfl
  refine ⟨harm, ?_, ?_⟩
  · intro env T
    unfold runWithControls
    rw [harm]
    cases hs : env.abortedAtStart with
    | true => simp
    | false =>
      simp only [Bool.false_eq_true, if_false]
      cases hw : env.workAt with
      | none =>
        cases ha : env.abortAt with
        | none => simp [abortOrTimeout]
        | some ta => simp [abortOrTimeout]
      | some p =>
        obtain ⟨tw, r⟩ := p
        cases hcond : ((env.abortAt.all fun ta => decide (tw ≤ ta)) &&
            (Option.all (fun u => decide (tw ≤ u)) (none : Option Int))) with
        | true =>
          simp only [hcond, if_true]
          cases r <;> simp
        | false =>
          simp only [hcond, Bool.false_eq_true, if_false]
          cases ha : env.abortAt with
          | none => simp [abortOrTimeout]
          | some ta => simp [abortOrTimeout]
  · intro env hs ha hw
    unfold runWithControls
    rw [hs, harm, hw]
    simp only [Bool.false_eq_true, if_false]
    rw [ha]
    rfl

theorem claim_C9_witness :
    armedTimeout (some (.num 0)) 30000 = none ∧
    runWithControls Unit (some (.num 0)) 30000
      ⟨false, none, some (3, .ok ())⟩ ≠ .timedOut 5 ∧
    runWithControls Unit (some (.num 0)) 30000
      ⟨false, none, none⟩ = .stillPending := by
  have hc := claim_C9_no_timeout Unit (.num 0) 30000 (Or.inl ⟨0, rfl, by omega⟩)
  exact ⟨hc.1, hc.2.1 ⟨false, none, some (3, .ok ())⟩ 5, hc.2.2 ⟨false, none, none⟩ rfl rfl rfl⟩

/-- Claim C4: `terminate` on an id absent from the registry resolves to
`false` without throwing (the function is total and returns the unchanged
state); on an id present in the registry it resolves to a boolean and
afterwards the id is absent from the registry (hence from `list()`). -/
theorem claim_C4_terminate_contract (st : MgrState) (id : String)
    (outFor : Nat → OpOutcome) (now : Int) :
    (lookupC st id = none → terminateOp st id outFor now = (st, false)) ∧
    (∀ c, lookupC st id = some c →
      lookupC (terminateOp st id outFor now).1 id = none ∧
        (terminateOp st id outFor now).2 = true) := by
  constructor
  · intro h
    unfold terminateOp
    rw [h]
  · intro c hl
    exact terminateOp_deletes st id outFor now c hl

theorem claim_C4_witness :
    terminateOp MgrState.init "missing" (fun _ => .success) 0 =
      (MgrState.init, false) ∧
    lookupC (terminateOp demoSpawn "c1" (fun _ => .success) 1).1 "c1" = none ∧
    (terminateOp demoSpawn "c1" (fun _ => .success) 1).2 = true := by
  have h1 := (claim_C4_terminate_contract MgrState.init "missing"
    (fun _ => .success) 0).1 (by decide)
  have h2 := (claim_C4_terminate_contract demoSpawn "c1"
    (fun _ => .success) 1).2 demoReady (by decide)
  exact ⟨h1, h2.1, h2.2⟩

/-- The registry entries with a fresh key are untouched by the point update
and restored by the deletion: `delete` after `set`+mutation is a no-op on the
original registry. -/
theorem erase_update_append {cs : List (String × ContainerRec)} {id : String}
    (hl : List.lookup id cs = none) (c : ContainerRec)
    (f : ContainerRec → ContainerRec) :
    eraseRec ((cs ++ [(id, c)]).map
      fun p => if p.1 == id then (p.1, f p.2) else p) id = cs := by
  induction cs with
  | nil =>
    simp [eraseRec, List.filter]
  | cons a tl ih =>
    obtain ⟨k, b⟩ := a
    have hk : ¬ (id = k) := by
      intro he
      subst he
      rw [lookupS_cons_self] at hl
      cases hl
    have hk' : (k == id) = false := beq_eq_false_iff_ne.mpr fun he => hk he.symm
    have hltl : List.lookup id tl = none := by
      rw [lookupS_cons_ne hk] at hl
      exact hl
    simp only [List.cons_append, List.map_cons, hk', Bool.false_eq_true,
      if_false]
    rw [show eraseRec ((k, b) :: ((tl ++ [(id, c)]).map
        fun p => if p.1 == id then (p.1, f p.2) else p)) id =
      (k, b) :: eraseRec ((tl ++ [(id, c)]).map
        fun p => if p.1 == id then (p.1, f p.2) else p) id from by
        simp [eraseRec, List.filter_cons, hk']]
    rw [ih hltl]

/-- Claim C5: when runtime construction fails during `spawn` (capacity and
duplicate-id checks passed), the partially created record is deleted before
the construction error propagates: the registry is exactly what it was before
the call, the id is absent (in particular no record in state `errored`
remains), and the caller receives the construction error. -/
theorem claim_C5_spawn_cleanup (maxC : Option Nat) (st : MgrState)
    (opts : SpawnOptions) (freshId msg : String) (now : Int)
    (hcap : capReached maxC st.containers.length = false)
    (hdup : lookupC st (opts.idOpt.getD freshId) = none) :
    (spawn maxC st opts freshId (.error msg) now).1.containers = st.containers ∧
    (spawn maxC st opts freshId (.error msg) now).2 =
      .error (.constructionFailed msg) ∧
    lookupC (spawn maxC st opts freshId (.error msg) now).1
      (opts.idOpt.getD freshId) = none := by
  have hc : (spawn maxC st opts freshId (.error msg) now).1.containers =
      st.containers := by
    unfold spawn
    rw [if_neg (by rw [hcap]; intro h; cases h),
      if_neg (by rw [hdup]; intro h; simp at h)]
    exact erase_update_append hdup
      (spawnNewRec (opts.idOpt.getD freshId) opts now)
      (fun c0 => setStatusFn { c0 with lastError := some msg } .errored now)
  refine ⟨hc, ?_, ?_⟩
  · unfold spawn
    rw [if_neg (by rw [hcap]; intro h; cases h),
      if_neg (by rw [hdup]; intro h; simp at h)]
  · show List.lookup _ (spawn maxC st opts freshId (.error msg) now).1.containers = none
    rw [hc]
    exact hdup

theorem claim_C5_witness :
    (spawn none demoSpawn { idOpt := some "c2" } "g2"
      (.error "boom") 5).1.containers = demoSpawn.containers ∧
    (spawn none demoSpawn { idOpt := some "c2" } "g2" (.error "boom") 5).2 =
      .error (.constructionFailed "boom") ∧
    lookupC (spawn none demoSpawn { idOpt := some "c2" } "g2"
      (.error "boom") 5).1 "c2" = none := by
  exact claim_C5_spawn_cleanup none demoSpawn { idOpt := some "c2" } "g2"
    "boom" 5 (by decide) (by decide)

/-- Claim C6: one idle sweep removes exactly the registry records that are
`ready` with zero active and zero pending operations and idle at least
`idleTtlMs`; every other record — in particular any record with an active
operation, however long idle — survives unchanged, and absent ids stay
absent. -/
theorem claim_C6_idle_eviction (st : MgrState) (idleTtlMs now : Int)
    (outFor : Nat → OpOutcome) (id : String)
    (hnd : (st.containers.map (·.1)).Nodup) :
    (∀ c, lookupC st id = some c →
      (isIdleCandidate c now idleTtlMs = true →
        lookupC (evictIdleContainers st idleTtlMs now outFor) id = none) ∧
      (isIdleCandidate c now idleTtlMs = false →
        lookupC (evictIdleContainers st idleTtlMs now outFor) id = some c) ∧
      (0 < c.activeOperations →
        lookupC (evictIdleContainers st idleTtlMs now outFor) id = some c)) ∧
    (lookupC st id = none →
      lookupC (evictIdleContainers st idleTtlMs now outFor) id = none) := by
  constructor
  · intro c hl
    have hmem : (id, c) ∈ st.containers := mem_of_lookup hl
    have hcand_iff : isIdleCandidate c now idleTtlMs = true →
        id ∈ (st.containers.filter
          fun p => isIdleCandidate p.2 now idleTtlMs).map (·.1) := by
      intro hcand
      have hmf : (id, c) ∈ st.containers.filter
          (fun p => isIdleCandidate p.2 now idleTtlMs) :=
        List.mem_filter.mpr ⟨hmem, hcand⟩
      exact List.mem_map_of_mem (·.1) hmf
    have hncand : isIdleCandidate c now idleTtlMs = false →
        id ∉ (st.containers.filter
          fun p => isIdleCandidate p.2 now idleTtlMs).map (·.1) := by
      intro hcand hmem'
      obtain ⟨p, hp, hpe⟩ := List.mem_map.mp hmem'
      have hpf := List.mem_filter.mp hp
      obtain ⟨k, b⟩ := p
      simp only at hpe
      subst hpe
      have hbc : b = c := lookupC_eq_of_mem hnd hl hpf.1
      subst hbc
      have hp2 : isIdleCandidate b now idleTtlMs = true := hpf.2
      rw [hcand] at hp2
      cases hp2
    refine ⟨?_, ?_, ?_⟩
    · intro hcand
      exact lookup_foldTerm_mem outFor now _ st id (hcand_iff hcand)
    · intro hcand
      rw [show evictIdleContainers st idleTtlMs now outFor =
        ((st.containers.filter fun p => isIdleCandidate p.2 now idleTtlMs).map
          (·.1)).foldl (fun acc cid => (terminateOp acc cid outFor now).1) st
        from rfl]
      rw [lookup_foldTerm_notmem outFor now _ st id (hncand hcand)]
      exact hl
    · intro hact
      have hcand : isIdleCandidate c now idleTtlMs = false := by
        unfold isIdleCandidate
        have : (c.activeOperations == 0) = false := by
          simp
          omega
        rw [this]
        simp
      rw [show evictIdleContainers st idleTtlMs now outFor =
        ((st.containers.filter fun p => isIdleCandidate p.2 now idleTtlMs).map
          (·.1)).foldl (fun acc cid => (terminateOp acc cid outFor now).1) st
        from rfl]
      rw [lookup_foldTerm_notmem outFor now _ st id (hncand hcand)]
      exact hl
  · intro hl
    exact lookup_foldTerm_none outFor now _ st id hl

theorem claim_C6_witness :
    isIdleCandidate demoReady 100 50 = true ∧
    lookupC (evictIdleContainers demoSpawn 50 100 (fun _ => .success))
      "c1" = none := by
  have hc := ((claim_C6_idle_eviction demoSpawn 50 100 (fun _ => .success)
    "c1" (by decide)).1 demoReady (by decide)).1
  exact ⟨by decide, hc (by decide)⟩

/-- Counterexample to claim C7 as stated: a `spawn` rejected at the capacity
ceiling fails with the capacity error of the taxonomy, yet
`operationsFailed` is not incremented (it stays 0). -/
theorem claim_C7_counterexample :
    (spawn (some 0) MgrState.init {} "c1" (.ok ()) 0).2 =
      .error .capacityReached ∧
    (spawn (some 0) MgrState.init {} "c1" (.ok ()) 0).1.metrics.operationsFailed
      = 0 ∧
    MgrState.init.metrics.operationsFailed = 0 := by
  refine ⟨rfl, rfl, rfl⟩

/-- Claim C7, amended: `operationsFailed` is incremented exactly when a
gate-managed operation that has started fails — timeout, abort, or a
propagated work error — and timeout/abort failures additionally increment
`operationTimeouts` / `operationAborted`; failures surfaced outside the gate
(capacity, duplicate id, construction, not-found, finalizing) leave
`operationsFailed` (and for not-found/finalizing the whole metrics record)
unchanged. -/
theorem claim_C7_amended (m : Metrics) (out : OpOutcome) :
    (out ≠ .success →
      (finishMetrics m out).operationsFailed = m.operationsFailed + 1) ∧
    (out = .success →
      (finishMetrics m out).operationsFailed = m.operationsFailed) ∧
    (∀ t, out = .timeout t →
      (finishMetrics m out).operationTimeouts = m.operationTimeouts + 1) ∧
    (out = .aborted →
      (finishMetrics m out).operationAborted = m.operationAborted + 1) ∧
    (∀ (maxC : Option Nat) (st : MgrState) (opts : SpawnOptions)
      (freshId : String) (ctor : Except String Unit) (now : Int),
      (spawn maxC st opts freshId ctor now).1.metrics.operationsFailed =
        st.metrics.operationsFailed) ∧
    (∀ (st : MgrState) (id : String) (now : Int),
      (snapshotOp st id now).1.metrics = st.metrics) ∧
    (∀ (st : MgrState) (id : String), (admitOp st id).1.metrics = st.metrics) ∧
    (∀ (st : MgrState) (id : String) (i : Nat),
      (mgrCancel st id i).metrics = st.metrics) := by
  refine ⟨?_, ?_, ?_, ?_, ?_, ?_, ?_, ?_⟩
  · intro h
    cases out with
    | success => exact absurd rfl h
    | timeout t => rfl
    | aborted => rfl
    | workError msg => rfl
  · intro h
    subst h
    rfl
  · intro t h
    subst h
    rfl
  · intro h
    subst h
    rfl
  · intro maxC st opts freshId ctor now
    unfold spawn
    by_cases hcap : capReached maxC st.containers.length = true
    · rw [if_pos hcap]
    · rw [if_neg hcap]
      by_cases hdup : (lookupC st (opts.idOpt.getD freshId)).isSome = true
      · rw [if_pos hdup]
      · rw [if_neg hdup]
        cases ctor with
        | ok u => rfl
        | error msg => rfl
  · intro st id now
    unfold snapshotOp
    cases requireContainer st id with
    | error e => rfl
    | ok c => rfl
  · intro st id
    unfold admitOp
    cases requireContainer st id with
    | error e => rfl
    | ok c => rfl
  · intro st id i
    rfl

theorem claim_C7_amended_witness :
    (finishMetrics Metrics.init (.timeout 25)).operationsFailed =
      Metrics.init.operationsFailed + 1 ∧
    (finishMetrics Metrics.init (.timeout 25)).operationTimeouts =
      Metrics.init.operationTimeouts + 1 ∧
    (spawn (some 0) MgrState.init {} "c1" (.ok ()) 0).1.metrics.operationsFailed
      = MgrState.init.metrics.operationsFailed ∧
    (admitOp MgrState.init "missing").1.metrics = MgrState.init.metrics := by
  have hc := claim_C7_amended Metrics.init (.timeout 25)
  exact ⟨hc.1 (by intro h; cases h), hc.2.2.1 25 rfl,
    hc.2.2.2.2.1 (some 0) MgrState.init {} "c1" (.ok ()) 0,
    hc.2.2.2.2.2.2.1 MgrState.init "missing"⟩

/-- Counterexample to claim C8 as stated: in a reachable state a record can
sit in the registry with status `terminating` (the synchronous head of a
`terminate` call ran, its queued finalize has not), and `snapshot` on that
present id throws the finalizing error rather than returning a snapshot. -/
theorem claim_C8_counterexample :
    Reachable none demoTerminating ∧
    lookupC demoTerminating "c1" =
      some (setStatusFn demoReady .terminating 1) ∧
    (snapshotOp demoTerminating "c1" 2).2 =
      .error (.finalizing "c1" .terminating) := by
  refine ⟨?_, by decide, by rfl⟩
  have h1 : Reachable none demoSpawn :=
    Reachable.step Reachable.init
      (Step.spawnStep MgrState.init { idOpt := some "c1" } "g1" (Except.ok ()) 0)
  exact Reachable.step h1
    (Step.termBeginStep demoSpawn "c1" demoReady 1 (by decide) (by decide))

/-- Claim C8, amended: `snapshot(id)` fails exactly when the id is absent
(not-found) or the record is finalizing (`terminating`/`terminated`); for
every id present with any other status it returns the filesystem snapshot
without throwing. -/
theorem claim_C8_amended (st : MgrState) (id : String) (now : Int) :
    (lookupC st id = none →
      (snapshotOp st id now).2 = .error (.notFound id)) ∧
    (∀ c, lookupC st id = some c →
      (c.status = .terminating ∨ c.status = .terminated) →
      (snapshotOp st id now).2 = .error (.finalizing id c.status)) ∧
    (∀ c, lookupC st id = some c → c.status ≠ .terminating →
      c.status ≠ .terminated →
      (snapshotOp st id now).2 = .ok c.vfsContent) := by
  refine ⟨?_, ?_, ?_⟩
  · intro hl
    have hreq : requireContainer st id = .error (.notFound id) := by
      simp only [requireContainer, hl]
    unfold snapshotOp
    rw [hreq]
  · intro c hl hs
    have hreq : requireContainer st id = .error (.finalizing id c.status) := by
      simp only [requireContainer, hl]
      rw [if_pos (Or.symm hs)]
    unfold snapshotOp
    rw [hreq]
  · intro c hl hs1 hs2
    have hreq : requireContainer st id = .ok c := by
      simp only [requireContainer, hl]
      rw [if_neg (by intro h; rcases h with h | h; exact hs2 h; exact hs1 h)]
    unfold snapshotOp
    rw [hreq]

theorem claim_C8_amended_witness :
    (snapshotOp MgrState.init "missing" 3).2 =
      .error (.notFound "missing") ∧
    (snapshotOp demoTerminating "c1" 2).2 =
      .error (.finalizing "c1" .terminating) ∧
    (snapshotOp demoSpawn "c1" 2).2 = .ok demoReady.vfsContent := by
  have h1 := (claim_C8_amended MgrState.init "missing" 3).1 (by decide)
  have h2 := (claim_C8_amended demoTerminating "c1" 2).2.1
    (setStatusFn demoReady .terminating 1) (by decide) (Or.inl (by decide))
  have h3 := (claim_C8_amended demoSpawn "c1" 2).2.2 demoReady (by decide)
    (by decide) (by decide)
  exact ⟨h1, h2, h3⟩

/-- Claim C10: `snapshot(id)` on a present, non-finalizing record returns the
filesystem snapshot, rewrites exactly `lastUsedAt` and `updatedAt` to the
current time while leaving every other field of the record (status, counters,
metadata, filesystem content, …), every other record, and the metrics
unchanged — and thereby resets the idle-eviction clock: the refreshed record
can only be an idle candidate at a later instant `now'` with
`now' - now ≥ idleTtl`. -/
theorem claim_C10_snapshot_frame (st : MgrState) (id : String) (now : Int)
    (c : ContainerRec) (hl : lookupC st id = some c)
    (hs1 : c.status ≠ .terminating) (hs2 : c.status ≠ .terminated) :
    (snapshotOp st id now).2 = .ok c.vfsContent ∧
    lookupC (snapshotOp st id now).1 id =
      some { c with lastUsedAt := now, updatedAt := now } ∧
    (∀ id', id' ≠ id → lookupC (snapshotOp st id now).1 id' = lookupC st id') ∧
    (snapshotOp st id now).1.metrics = st.metrics ∧
    (∀ idleTtl now',
      isIdleCandidate { c with lastUsedAt := now, updatedAt := now } now'
        idleTtl = true → idleTtl ≤ now' - now) := by
  have hreq : requireContainer st id = .ok c := by
    simp only [requireContainer, hl]
    rw [if_neg (by intro h; rcases h with h | h; exact hs2 h; exact hs1 h)]
  refine ⟨?_, ?_, ?_, ?_, ?_⟩
  · unfold snapshotOp
    rw [hreq]
  · unfold snapshotOp
    rw [hreq]
    show lookupC (updateRec st id _) id = _
    rw [lookupC_updateRec, if_pos rfl, hl]
    rfl
  · intro id' hne
    unfold snapshotOp
    rw [hreq]
    show lookupC (updateRec st id _) id' = _
    rw [lookupC_updateRec, if_neg hne]
  · unfold snapshotOp
    rw [hreq]
    rfl
  · intro idleTtl now' hcand
    unfold isIdleCandidate at hcand
    simp only [Bool.and_eq_true, decide_eq_true_eq] at hcand
    exact hcand.2

theorem claim_C10_witness :
    (snapshotOp demoSpawn "c1" 9).2 = .ok demoReady.vfsContent ∧
    lookupC (snapshotOp demoSpawn "c1" 9).1 "c1" =
      some { demoReady with lastUsedAt := 9, updatedAt := 9 } ∧
    (snapshotOp demoSpawn "c1" 9).1.metrics = demoSpawn.metrics := by
  have hc := claim_C10_snapshot_frame demoSpawn "c1" 9 demoReady (by decide)
    (by decide) (by decide)
  exact ⟨hc.1, hc.2.1, hc.2.2.2.1⟩

end Vibeclaw
